import Mathlib

/-!
Shallow embedding of the TiDB merge-join operator (`MergeJoinExec` and
`mergeJoinTable` from `executor/merge_join.go`) together with the external
collaborators it uses (group checker, row container, joiner, chunk library),
which are modelled from the specification's contracts where their code is not
part of the sources.

Machine integers never overflow in the modelled paths, so counters are `Int`
and sizes are `Nat`.  Go's mutation is explicit state passing; Go's `error`
channel is `Except MJError`.  Loops without a structural measure take fuel and
report exhaustion through the error channel (the Go loops terminate because
the input streams are finite; fuel exhaustion never happens at the fuel values
used in the concrete runs below).
-/

namespace MergeJoin

/-- A join key value vector: one entry per join-key column, `none` is SQL NULL. -/
abbrev Key := List (Option Int)

/-- A row: its column values (NULL = `none`) and its physical index inside the
chunk that holds it (`chunk.Row.Idx()` in the source, used to index
`filtersSelected`). -/
structure Row where
  cols : List (Option Int)
  idx : Nat
deriving DecidableEq, Repr

instance : Inhabited Row := ⟨⟨[], 0⟩⟩

/-- A columnar batch (`chunk.Chunk`): physical rows, an optional selection
vector, the `requiredRows` budget and the capacity bound `maxChunkSize`. -/
structure Chunk where
  rows : List Row
  sel : Option (List Nat)
  requiredRows : Nat
  maxChunkSize : Nat
deriving DecidableEq, Repr

namespace Chunk

/-- Logical rows: the selection vector applied, as chunk iteration does. -/
def logicalRows (c : Chunk) : List Row :=
  match c.sel with
  | some s => s.map (fun i => c.rows.getD i default)
  | none => c.rows

/-- `Chunk.NumRows`: the number of logical rows. -/
def numRows (c : Chunk) : Nat := c.logicalRows.length

/-- `Chunk.GetRow`: maps a logical index through the selection vector. -/
def getRow (c : Chunk) (i : Nat) : Row :=
  match c.sel with
  | some s => c.rows.getD (s.getD i 0) default
  | none => c.rows.getD i default

/-- `Chunk.SetSel`. -/
def setSel (c : Chunk) (s : Option (List Nat)) : Chunk := { c with sel := s }

/-- `Chunk.IsFull`: logical row count has reached `requiredRows`. -/
def isFull (c : Chunk) : Bool := c.numRows ≥ c.requiredRows

/-- `Chunk.Reset`: drop the data and the selection, keep the budgets. -/
def reset (c : Chunk) : Chunk := { c with rows := [], sel := none }

/-- `Chunk.SetRequiredRows (n, maxChunkSize)`: out-of-range hints fall back to
a full batch. -/
def setRequiredRows (c : Chunk) (n : Int) (maxCS : Nat) : Chunk :=
  if n ≤ 0 ∨ n > (maxCS : Int) then { c with requiredRows := maxCS }
  else { c with requiredRows := n.toNat }

/-- A fresh empty chunk with a full-batch budget (`tryNewCacheChunk`,
`RowContainer.AllocChunk`). -/
def empty (maxCS : Nat) : Chunk :=
  { rows := [], sel := none, requiredRows := maxCS, maxChunkSize := maxCS }

/-- Memory footprint of a chunk, as accounted to the side trackers.  The exact
byte function is irrelevant to the accounting invariants; the model charges one
unit per physical row (an empty chunk costs zero). -/
def memUsage : Option Chunk → Int
  | none => 0
  | some c => (c.rows.length : Int)

/-- Append already-joined rows to an output chunk. -/
def appendRows (c : Chunk) (rs : List Row) : Chunk := { c with rows := c.rows ++ rs }

end Chunk

/-- A chunk/row-container iterator (`chunk.Iterator`), snapshot style: the
logical row sequence it walks and the current position; `pos ≥ rows.length`
means `Current() == End()`. -/
structure RowIter where
  rows : List Row
  pos : Nat
deriving DecidableEq, Repr

namespace RowIter

def atEnd (it : RowIter) : Bool := it.pos ≥ it.rows.length

def current (it : RowIter) : Option Row := it.rows.get? it.pos

def next (it : RowIter) : RowIter := { it with pos := it.pos + 1 }

def begin (it : RowIter) : RowIter := { it with pos := 0 }

def reachEnd (it : RowIter) : RowIter := { it with pos := it.rows.length }

def ofRows (rs : List Row) : RowIter := ⟨rs, 0⟩

end RowIter

/-- Key of a row under a side's join-key column ordinals. -/
def keyOf (ks : List Nat) (r : Row) : Key := ks.map (fun k => r.cols.getD k none)

/-- Modelled from the spec: the group checker (`vecGroupChecker`, whose code is
not among the sources).  It partitions a batch into maximal runs of equal key,
keeps the last key across batches for the carry flag, and hands out the
recorded runs one at a time. -/
structure GroupChecker where
  keys : List Nat
  groups : List (Nat × Nat)
  lastKey : Option Key
deriving DecidableEq, Repr

/-- Helper for `splitRuns`: `k` is the key of the run that started at index
`start`; `i` is the index of the next row to examine. -/
def splitRunsAux (ks : List Nat) : List Row → Key → Nat → Nat → List (Nat × Nat)
  | [], _, start, i => [(start, i)]
  | r :: rs, k, start, i =>
    if keyOf ks r = k then splitRunsAux ks rs k start (i + 1)
    else (start, i) :: splitRunsAux ks rs (keyOf ks r) i (i + 1)

/-- Maximal runs of rows with equal keys, as half-open physical index ranges. -/
def splitRuns (ks : List Nat) (rows : List Row) : List (Nat × Nat) :=
  match rows with
  | [] => []
  | r :: rs => splitRunsAux ks rs (keyOf ks r) 0 1

namespace GroupChecker

/-- Modelled from the spec: `splitIntoGroups` records the batch's runs and
returns the carry flag — whether the first row's key equals the last key of the
previous batch. -/
def splitIntoGroups (gc : GroupChecker) (c : Chunk) : Bool × GroupChecker :=
  let carry :=
    match gc.lastKey, c.rows.head? with
    | some k, some r => decide (keyOf gc.keys r = k)
    | _, _ => false
  let last :=
    match c.rows.getLast? with
    | some r => some (keyOf gc.keys r)
    | none => gc.lastKey
  (carry, { gc with groups := splitRuns gc.keys c.rows, lastKey := last })

/-- Modelled from the spec: no recorded runs left in the current batch. -/
def isExhausted (gc : GroupChecker) : Bool := gc.groups.isEmpty

/-- Modelled from the spec: consume the next recorded run. -/
def getNextGroup (gc : GroupChecker) : (Nat × Nat) × GroupChecker :=
  match gc.groups with
  | [] => ((0, 0), gc)
  | g :: gs => (g, { gc with groups := gs })

def initial (ks : List Nat) : GroupChecker := ⟨ks, [], none⟩

end GroupChecker

/-- Modelled from the spec: the spillable row store (`chunk.RowContainer`).
Batches are stored with their selection; iteration yields each stored batch's
logical rows in insertion order.  Spilling moves bytes between the memory and
disk counters without changing the iterated rows; the model keeps everything
in memory. -/
structure RowContainer where
  chunks : List Chunk
deriving DecidableEq, Repr

namespace RowContainer

def numChunks (c : RowContainer) : Nat := c.chunks.length

def allRows (c : RowContainer) : List Row := c.chunks.flatMap Chunk.logicalRows

/-- Memory accounted to the container's tracker: the stored chunks' footprint. -/
def mem : Option RowContainer → Int
  | none => 0
  | some c => (c.chunks.map (fun ch => Chunk.memUsage (some ch))).sum

end RowContainer

/-- The merge-join error channel.  The modelled collaborators cannot fail, so
the only inhabitant reports fuel exhaustion of a modelled loop. -/
inductive MJError
  | fuel
deriving DecidableEq, Repr

/-- Per-side state (`mergeJoinTable`).  Go pointer fields are `Option`; a side
released by `finish` has them at `none`.  `hasTracker` models whether
`t.memTracker` is non-nil (the tracker's running total itself is kept in the
operator-level ledger, where all `Consume` calls land by parent propagation). -/
structure MJTable where
  inited : Bool
  isInner : Bool
  childIndex : Nat
  joinKeys : List Nat
  filters : List (Row → Bool)
  executed : Bool
  childChunk : Option Chunk
  childChunkIter : Option RowIter
  groupChecker : Option GroupChecker
  groupRowsSelected : List Nat
  groupRowsIter : Option RowIter
  rowContainer : Option RowContainer
  filtersSelected : List Bool
  hasTracker : Bool

/-- Operator-level context the side operations need: the children's remaining
input streams (a row is its column list), configuration, and the memory/disk
ledger of the operator's trackers.  `fetchLog` is ghost instrumentation
recording each upstream pull as (child index, `requiredRows` of the request
chunk); it affects nothing. -/
structure ExecCore where
  children : List (List (List (Option Int)))
  maxChunkSize : Nat
  isOuterJoin : Bool
  desc : Bool
  mem : Int
  disk : Int
  fetchLog : List (Nat × Nat)

namespace MJTable

/-- The current chunk, with the Go nil chunk read as an empty one. -/
def chunkD (t : MJTable) (maxCS : Nat) : Chunk := t.childChunk.getD (Chunk.empty maxCS)

/-- `t.groupChecker.isExhausted()`. -/
def checkerExhausted (t : MJTable) : Bool :=
  match t.groupChecker with
  | some gc => gc.isExhausted
  | none => true

/-- Number of runs the checker still holds (used to size the group-pick loop's
fuel; the Go loop pops one run per iteration). -/
def numGroups (t : MJTable) : Nat :=
  match t.groupChecker with
  | some gc => gc.groups.length
  | none => 0

/-- `mergeJoinTable.hasNullInJoinKey`. -/
def hasNullInJoinKey (t : MJTable) (r : Row) : Bool :=
  t.joinKeys.any (fun k => (r.cols.getD k none).isNone)

/-- `mergeJoinTable.init`: allocate the side's chunk and checker, attach the
trackers, and charge the (empty) chunk to the side tracker. -/
def init (t : MJTable) (core : ExecCore) : MJTable × ExecCore :=
  let c := Chunk.empty core.maxChunkSize
  let t := { t with
    childChunk := some c,
    childChunkIter := some (RowIter.ofRows c.logicalRows),
    groupChecker := some (GroupChecker.initial t.joinKeys),
    groupRowsIter := some (RowIter.ofRows c.logicalRows) }
  let t :=
    if t.isInner then { t with rowContainer := some ⟨[]⟩ }
    else { t with filtersSelected := [] }
  let t := { t with hasTracker := true, inited := true }
  (t, { core with mem := core.mem + Chunk.memUsage t.childChunk })

/-- `mergeJoinTable.finish`: a side never initialised is a no-op; otherwise
release the chunk charge, close the row container (releasing what it holds),
and drop every field. -/
def finish (t : MJTable) (core : ExecCore) : Except MJError (MJTable × ExecCore) :=
  if !t.inited then .ok (t, core)
  else
    let core := { core with mem := core.mem - Chunk.memUsage t.childChunk }
    let core :=
      if t.isInner then { core with mem := core.mem - RowContainer.mem t.rowContainer }
      else core
    .ok ({ t with
      executed := false, childChunk := none, childChunkIter := none,
      groupChecker := none, groupRowsSelected := [], groupRowsIter := none,
      rowContainer := none, filtersSelected := [], hasTracker := false }, core)

/-- `mergeJoinTable.selectNextGroup`: consume the checker's next run; on the
inner side a run whose first row has a NULL join key is dropped (selection left
empty); otherwise record the run's indices and set them as the chunk's
selection. -/
def selectNextGroup (t : MJTable) : MJTable :=
  let gc := t.groupChecker.getD (GroupChecker.initial t.joinKeys)
  let ((b, e), gc') := gc.getNextGroup
  let t := { t with groupChecker := some gc', groupRowsSelected := [] }
  if t.isInner && t.hasNullInJoinKey ((t.childChunk.getD (Chunk.empty 0)).getRow b) then t
  else
    let sel := (List.range (e - b)).map (fun j => b + j)
    { t with
      groupRowsSelected := sel,
      childChunk := t.childChunk.map (fun (c : Chunk) => c.setSel (some sel)) }

/-- `mergeJoinTable.fetchNextChunk`: pull the next batch from the side's child
(the child fills up to the chunk's `requiredRows` rows), adjust the side's
memory charge by the usage delta, and record EOF in `executed`. -/
def fetchNextChunk (t : MJTable) (core : ExecCore) : MJTable × ExecCore :=
  let oldChunk := t.chunkD core.maxChunkSize
  let oldMemUsage := Chunk.memUsage t.childChunk
  let stream := core.children.getD t.childIndex []
  let k := oldChunk.requiredRows
  let newRows := (stream.take k).mapIdx (fun i cols => Row.mk cols i)
  let newChunk := { oldChunk with rows := newRows, sel := none }
  let core := { core with
    children := core.children.set t.childIndex (stream.drop k),
    mem := core.mem + (Chunk.memUsage (some newChunk) - oldMemUsage),
    fetchLog := core.fetchLog ++ [(t.childIndex, k)] }
  ({ t with childChunk := some newChunk, executed := newChunk.rows.isEmpty }, core)

/-- The `for isEmpty && !exhausted` loop of `fetchNextInnerGroup`: pull runs
until one survives the NULL-key filter or the checker runs dry.  Fuel is sized
by the caller from the run count; each iteration pops one run. -/
def pickGroupLoop : Nat → MJTable → MJTable
  | 0, t => t
  | n + 1, t =>
    if t.checkerExhausted then t
    else
      let t' := t.selectNextGroup
      if t'.groupRowsSelected.isEmpty then pickGroupLoop n t' else t'

/-- The `for !executed && exhausted` loop of `fetchNextInnerGroup`: hand the
current batch to the row container when a group is open, fetch the next batch,
re-split, and extend the open group when the carry flag says the first new run
continues it. -/
def innerAccumLoop : Nat → Bool → MJTable → ExecCore → Except MJError (MJTable × ExecCore)
  | 0, _, _, _ => .error .fuel
  | n + 1, isEmpty, t, core =>
    if !t.executed && t.checkerExhausted then
      let p : MJTable × ExecCore :=
        if !isEmpty then
          let ch := t.chunkD core.maxChunkSize
          let rc := t.rowContainer.getD ⟨[]⟩
          -- RowContainer.Add charges the chunk to the container's tracker,
          -- then the side tracker releases it; the fresh chunk is charged.
          let core := { core with mem := core.mem + Chunk.memUsage (some ch) }
          let core := { core with mem := core.mem - Chunk.memUsage (some ch) }
          let t := { t with rowContainer := some ⟨rc.chunks ++ [ch]⟩, groupRowsSelected := [] }
          let fresh := Chunk.empty core.maxChunkSize
          let t := { t with
            childChunk := some fresh,
            childChunkIter := some (RowIter.ofRows fresh.logicalRows) }
          (t, { core with mem := core.mem + Chunk.memUsage t.childChunk })
        else (t, core)
      let q := p.1.fetchNextChunk p.2
      if q.1.executed then .ok q
      else
        let gc := q.1.groupChecker.getD (GroupChecker.initial q.1.joinKeys)
        let sp := gc.splitIntoGroups (q.1.chunkD q.2.maxChunkSize)
        let t2 := { q.1 with groupChecker := some sp.2 }
        let t3 := if sp.1 && !isEmpty then t2.selectNextGroup else t2
        innerAccumLoop n isEmpty t3 q.2
    else .ok (t, core)

/-- The `fetchNext`-labelled body of `fetchNextInnerGroup`, re-entered by the
`goto fetchNext` when the assembled group is still empty. -/
def innerGroupLoop : Nat → MJTable → ExecCore → Except MJError (MJTable × ExecCore)
  | 0, _, _ => .error .fuel
  | n + 1, t, core =>
    if t.executed && t.checkerExhausted then
      .ok ({ t with groupRowsIter := t.groupRowsIter.map RowIter.reachEnd }, core)
    else
      let t1 := pickGroupLoop (t.numGroups + 1) t
      let isEmpty := t1.groupRowsSelected.isEmpty
      match innerAccumLoop (n + 1) isEmpty t1 core with
      | .error e => .error e
      | .ok q =>
        if isEmpty then innerGroupLoop n q.1 q.2
        else
          let rc := q.1.rowContainer.getD ⟨[]⟩
          let chainRows :=
            if q.1.groupRowsSelected.length ≠ 0 then (q.1.chunkD q.2.maxChunkSize).logicalRows
            else []
          let t2 :=
            if rc.numChunks ≠ 0 ∨ q.1.groupRowsSelected.length ≠ 0 then
              let base := if rc.numChunks ≠ 0 then rc.allRows else []
              { q.1 with groupRowsIter := some (RowIter.ofRows (base ++ chainRows)) }
            else { q.1 with groupRowsIter := none }
          .ok (t2, q.2)

/-- `mergeJoinTable.fetchNextInnerGroup`: clear the selection, reset the row
container (releasing its charge), and run the accumulation loop. -/
def fetchNextInnerGroup (fuel : Nat) (t : MJTable) (core : ExecCore) :
    Except MJError (MJTable × ExecCore) :=
  let t := { t with childChunk := t.childChunk.map (fun (c : Chunk) => c.setSel none) }
  let core := { core with mem := core.mem - RowContainer.mem t.rowContainer }
  let t := { t with rowContainer := some ⟨[]⟩ }
  innerGroupLoop fuel t core

/-- `mergeJoinTable.fetchNextOuterGroup`: pull a batch when the checker is
drained and upstream is alive — propagating the `required_rows` hint exactly
when the join is outer with no outer filter — then evaluate the filter vector,
split, select the next group and begin its iterator. -/
def fetchNextOuterGroup (t : MJTable) (core : ExecCore) (requiredRows : Int) :
    MJTable × ExecCore :=
  if t.executed && t.checkerExhausted then (t, core)
  else
    let (t, core, earlyReturn) :=
      if !t.executed && t.checkerExhausted then
        let t :=
          if core.isOuterJoin && t.filters.isEmpty then
            { t with
              childChunk := t.childChunk.map (fun (c : Chunk) => c.setRequiredRows requiredRows core.maxChunkSize) }
          else t
        let (t, core) := t.fetchNextChunk core
        if t.executed then (t, core, true)
        else
          let c := t.chunkD core.maxChunkSize
          let t := { t with childChunkIter := some (RowIter.ofRows c.logicalRows) }
          let t := { t with filtersSelected := c.logicalRows.map (fun r => t.filters.all (fun f => f r)) }
          let gc := t.groupChecker.getD (GroupChecker.initial t.joinKeys)
          let (_, gc') := gc.splitIntoGroups c
          ({ t with groupChecker := some gc' }, core, false)
      else (t, core, false)
    if earlyReturn then (t, core)
    else
      let t := t.selectNextGroup
      let c := t.chunkD core.maxChunkSize
      ({ t with groupRowsIter := some (RowIter.ofRows c.logicalRows) }, core)

end MJTable

/-- Modelled from the spec: one key-column comparator (`expression.CompareFunc`,
whose code is not among the sources).  NULL orders before every value and two
NULLs compare equal; the result is −1/0/+1. -/
def cmpOptInt : Option Int → Option Int → Int
  | none, none => 0
  | none, some _ => -1
  | some _, none => 1
  | some a, some b => if a < b then -1 else if a = b then 0 else 1

/-- Lexicographic key comparison, first non-zero column result wins
(`MergeJoinExec.compare`'s loop over `compareFuncs`). -/
def compareKeys : Key → Key → Int
  | [], _ => 0
  | _ :: _, [] => 0
  | a :: as, b :: bs =>
    let c := cmpOptInt a b
    if c ≠ 0 then c else compareKeys as bs

/-- A joined output row: outer columns then inner columns (`makeJoinRow`; the
physical index of an output row is not consulted anywhere). -/
def joinRow (orow irow : Row) : Row := ⟨orow.cols ++ irow.cols, 0⟩

/-- Modelled from the spec: the inner-join matcher's `tryToMatchInners` —
advance the inner-group iterator appending joined rows until the output is full
or the iterator is exhausted; `matched` is true iff any row was appended (the
modelled matcher has no residual predicate, so `produced_null` is false). -/
def tryToMatchInners (orow : Row) (it : RowIter) (req : Chunk) : Bool × RowIter × Chunk :=
  let room := req.requiredRows - req.numRows
  let avail := it.rows.length - it.pos
  let n := min room avail
  let appended := ((it.rows.drop it.pos).take n).map (joinRow orow)
  (decide (0 < n), { it with pos := it.pos + n }, req.appendRows appended)

/-- The operator (`MergeJoinExec`).  `cmpLog` and `missLog` are ghost
instrumentation recording comparator invocations and `onMissMatch` calls (the
modelled inner-join `onMissMatch` appends nothing to the output); they affect
nothing. -/
structure MJExec where
  core : ExecCore
  innerTable : MJTable
  outerTable : MJTable
  hasMatch : Bool
  hasNull : Bool
  trackersLive : Bool
  cmpLog : List (Key × Key)
  missLog : List Row

namespace MJExec

/-- The inner group iterator, as the driver's local alias reads it. -/
def innerIter (e : MJExec) : RowIter := e.innerTable.groupRowsIter.getD (RowIter.ofRows [])

/-- The outer group iterator, as the driver's local alias reads it. -/
def outerIter (e : MJExec) : RowIter := e.outerTable.groupRowsIter.getD (RowIter.ofRows [])

def setInnerIter (e : MJExec) (it : RowIter) : MJExec :=
  { e with innerTable := { e.innerTable with groupRowsIter := some it } }

def setOuterIter (e : MJExec) (it : RowIter) : MJExec :=
  { e with outerTable := { e.outerTable with groupRowsIter := some it } }

/-- `MergeJoinExec.compare` on the two key specs, ghost-logging the invocation. -/
def compare (e : MJExec) (orow irow : Row) : Int × MJExec :=
  let ko := keyOf e.outerTable.joinKeys orow
  let ki := keyOf e.innerTable.joinKeys irow
  (compareKeys ko ki, { e with cmpLog := e.cmpLog ++ [(ko, ki)] })

/-- The `for ... onMissMatch` loop of the outer-behind branch (`Next` lines
360–363): pass every remaining outer-group row to the miss-match path until the
output fills or the group ends. -/
def missMatchLoop : Nat → MJExec → Chunk → Except MJError (MJExec × Chunk)
  | 0, _, _ => .error .fuel
  | n + 1, e, req =>
    match e.outerIter.current with
    | none => .ok (e, req)
    | some row =>
      if req.isFull then .ok (e, req)
      else
        let e := { e with missLog := e.missLog ++ [row] }
        missMatchLoop n (e.setOuterIter e.outerIter.next) req

/-- The `for innerIter.Current() != innerIter.End()` matching loop inside the
equal-keys branch.  The returned flag is true when the Go code takes the
mid-group `return nil` (output full, inner not exhausted): the suspension that
preserves the inner iterator's position. -/
def innerMatchLoop : Nat → MJExec → Chunk → Row → Except MJError (MJExec × Chunk × Bool)
  | 0, _, _, _ => .error .fuel
  | n + 1, e, req, row =>
    let it := e.innerIter
    if it.atEnd then .ok (e, req, false)
    else
      let (matched, it', req') := tryToMatchInners row it req
      let e := e.setInnerIter it'
      let e := { e with hasMatch := e.hasMatch || matched, hasNull := e.hasNull || false }
      if req'.isFull then
        if it'.atEnd then .ok (e, req', false) else .ok (e, req', true)
      else innerMatchLoop n e req' row

/-- The equal-keys branch's outer-row loop (`Next` lines 366–394): filtered-out
rows take the miss-match path; others are matched against the inner group,
suspending when the output fills mid-group; after the inner group is exhausted
an unmatched row takes the miss-match path, the flags reset and the inner
iterator rewinds for the next outer row. -/
def outerRowsLoop : Nat → MJExec → Chunk → Except MJError (MJExec × Chunk × Bool)
  | 0, _, _ => .error .fuel
  | n + 1, e, req =>
    match e.outerIter.current with
    | none => .ok (e, req, false)
    | some row =>
      if req.isFull then .ok (e, req, false)
      else if !(e.outerTable.filtersSelected.getD row.idx true) then
        let e := { e with missLog := e.missLog ++ [row] }
        outerRowsLoop n (e.setOuterIter e.outerIter.next) req
      else
        match innerMatchLoop (n + 1) e req row with
        | .error er => .error er
        | .ok (e, req, susp) =>
          if susp then .ok (e, req, true)
          else
            let e := if !e.hasMatch then { e with missLog := e.missLog ++ [row] } else e
            let e := { e with hasMatch := false, hasNull := false }
            let e := e.setInnerIter e.innerIter.begin
            outerRowsLoop n (e.setOuterIter e.outerIter.next) req

/-- The comparison result of `Next` lines 343–352: default −1 (ascending) or
+1 (descending), overwritten by the comparator only when the inner group
iterator is not at its end. -/
def computeCmp (e : MJExec) : Int × MJExec :=
  if !e.innerIter.atEnd then
    e.compare (e.outerIter.current.getD default) (e.innerIter.current.getD default)
  else (if e.core.desc then 1 else -1, e)

end MJExec

/-- The outcome of one iteration of the `for !req.IsFull()` body of `Next`:
`done` is a `return nil` inside the body, `cont` falls through to the next
iteration, `fail` propagates an error. -/
inductive StepRes
  | done (e : MJExec) (req : Chunk)
  | cont (e : MJExec) (req : Chunk)
  | fail (er : MJError)

namespace MJExec

/-- The part of the main loop's body after the inner-group refill (`Next`
lines 333–394): refill the outer group (returning when the outer side is
exhausted), compute the comparison, and dispatch to the inner-behind,
outer-behind or equal-keys branch. -/
def nextStepRest (n : Nat) (e : MJExec) (req : Chunk) : StepRes :=
  let outerWasEnd := e.outerIter.atEnd
  let e :=
    if outerWasEnd then
      let (t, core) :=
        MJTable.fetchNextOuterGroup e.outerTable e.core
          ((req.requiredRows : Int) - (req.numRows : Int))
      { e with outerTable := t, core := core }
    else e
  if outerWasEnd && e.outerTable.executed then .done e req
  else
    let (cmp, e) := e.computeCmp
    if (cmp > 0 && !e.core.desc) || (cmp < 0 && e.core.desc) then
      .cont (e.setInnerIter e.innerIter.reachEnd) req
    else if (cmp < 0 && !e.core.desc) || (cmp > 0 && e.core.desc) then
      match missMatchLoop n e req with
      | .error er => .fail er
      | .ok (e, req) => .cont e req
    else
      match outerRowsLoop n e req with
      | .error er => .fail er
      | .ok (e, req, susp) =>
        if susp then .done e req else .cont e req

/-- One iteration of the main loop's body (`Next` lines 326–394): refill the
inner group if its iterator is at the end, then run the rest of the body. -/
def nextStep (n : Nat) (e : MJExec) (req : Chunk) : StepRes :=
  let r1 : Except MJError MJExec :=
    if e.innerIter.atEnd then
      match MJTable.fetchNextInnerGroup n e.innerTable e.core with
      | .error er => .error er
      | .ok (t, core) => .ok { e with innerTable := t, core := core }
    else .ok e
  match r1 with
  | .error er => .fail er
  | .ok e => nextStepRest n e req

/-- The `for !req.IsFull()` main loop of `MergeJoinExec.Next`. -/
def nextLoop : Nat → MJExec → Chunk → Except MJError (MJExec × Chunk)
  | 0, _, _ => .error .fuel
  | n + 1, e, req =>
    if req.isFull then .ok (e, req)
    else
      match nextStep (n + 1) e req with
      | .fail er => .error er
      | .done e req => .ok (e, req)
      | .cont e req => nextLoop n e req

/-- `MergeJoinExec.Next`: reset the caller's chunk, then run the main loop. -/
def next (fuel : Nat) (e : MJExec) (req : Chunk) : Except MJError (MJExec × Chunk) :=
  nextLoop fuel e req.reset

/-- `MergeJoinExec.Open`: attach fresh memory/disk trackers (their operator
totals start at zero) and initialise both sides, inner first. -/
def openExec (e : MJExec) : MJExec :=
  let core := { e.core with mem := 0, disk := 0 }
  let (ti, core) := e.innerTable.init core
  let (tOut, core) := e.outerTable.init core
  { e with core := core, innerTable := ti, outerTable := tOut, trackersLive := true }

/-- `MergeJoinExec.Close`: finish the inner side, then the outer side, clear
the flags and drop the trackers (`BaseExecutor.Close` is modelled from the
spec as error-free). -/
def close (e : MJExec) : Except MJError MJExec :=
  match e.innerTable.finish e.core with
  | .error er => .error er
  | .ok (ti, core) =>
    match e.outerTable.finish core with
    | .error er => .error er
    | .ok (tOut, core) =>
      .ok { e with
            core := core, innerTable := ti, outerTable := tOut,
            hasMatch := false, hasNull := false, trackersLive := false }

end MJExec

/-- A blank side as the executor builder leaves it before `Open`. -/
def mkTable (isInner : Bool) (childIndex : Nat) (joinKeys : List Nat)
    (filters : List (Row → Bool)) : MJTable :=
  { inited := false, isInner := isInner, childIndex := childIndex,
    joinKeys := joinKeys, filters := filters, executed := false,
    childChunk := none, childChunkIter := none, groupChecker := none,
    groupRowsSelected := [], groupRowsIter := none, rowContainer := none,
    filtersSelected := [], hasTracker := false }

/-- A merge-join operator before `Open`: child 0 is the inner stream, child 1
the outer stream (a stream row is its column list). -/
def mkExec (maxCS : Nat) (descFlag isOuterJoin : Bool)
    (innerKeys outerKeys : List Nat) (outerFilters : List (Row → Bool))
    (innerStream outerStream : List (List (Option Int))) : MJExec :=
  { core := { children := [innerStream, outerStream], maxChunkSize := maxCS,
              isOuterJoin := isOuterJoin, desc := descFlag,
              mem := 0, disk := 0, fetchLog := [] },
    innerTable := mkTable true 0 innerKeys [],
    outerTable := mkTable false 1 outerKeys outerFilters,
    hasMatch := false, hasNull := false, trackersLive := false,
    cmpLog := [], missLog := [] }

/-- A caller-supplied output chunk with row budget `cap`. -/
def mkReq (cap : Nat) : Chunk :=
  { rows := [], sel := none, requiredRows := cap, maxChunkSize := cap }

/-- Drive the operator to exhaustion: call `next` with a fresh budget-`cap`
output chunk until an empty batch comes back, collecting each batch's rows (as
column lists). -/
def runAll : Nat → Nat → MJExec → Nat →
    Except MJError (MJExec × List (List (List (Option Int))))
  | 0, _, _, _ => .error .fuel
  | n + 1, batchFuel, e, cap =>
    match e.next batchFuel (mkReq cap) with
    | .error er => .error er
    | .ok (e, out) =>
      if out.rows.isEmpty then .ok (e, [])
      else
        match runAll n batchFuel e cap with
        | .error er => .error er
        | .ok (e', outs) => .ok (e', (out.rows.map Row.cols) :: outs)

instance {ε α : Type} [DecidableEq ε] [DecidableEq α] : DecidableEq (Except ε α) :=
  fun x y =>
    match x, y with
    | .ok a, .ok b =>
      if h : a = b then .isTrue (by rw [h])
      else .isFalse (by intro he; cases he; exact h rfl)
    | .error a, .error b =>
      if h : a = b then .isTrue (by rw [h])
      else .isFalse (by intro he; cases he; exact h rfl)
    | .ok _, .error _ => .isFalse (by intro he; cases he)
    | .error _, .ok _ => .isFalse (by intro he; cases he)

/-! ### Concrete scenarios from the specification -/

/-- Scenario S1: outer keys [1,2,2,3], inner keys [2,2,4], inner equi-join. -/
def s1exec : MJExec :=
  (mkExec 4 false false [0] [0] []
    [[some 2], [some 2], [some 4]]
    [[some 1], [some 2], [some 2], [some 3]]).openExec

/-- Scenario S4: `max_chunk_size = 2`, outer [2], inner [2,2,2,2,2,3] arriving
as batches [2,2],[2,2],[2,3]. -/
def s4exec : MJExec :=
  (mkExec 2 false false [0] [0] []
    [[some 2], [some 2], [some 2], [some 2], [some 2], [some 3]]
    [[some 2]]).openExec

/-- Scenario S5: outer keys [null,1,2], inner keys [null,2], inner join. -/
def s5exec : MJExec :=
  (mkExec 4 false false [0] [0] []
    [[none], [some 2]]
    [[none], [some 1], [some 2]]).openExec

/-- Scenario S6: output budget 2, outer [2], inner [2,2,2], inner join. -/
def s6exec : MJExec :=
  (mkExec 4 false false [0] [0] []
    [[some 2], [some 2], [some 2]]
    [[some 2]]).openExec

/-- First `next` call of S6. -/
def s6next1 : Except MJError (MJExec × Chunk) := s6exec.next 50 (mkReq 2)

/-- Operator state after the first S6 `next`. -/
def s6exec1 : MJExec :=
  match s6next1 with
  | .ok (e, _) => e
  | .error _ => s6exec

/-- Second `next` call of S6. -/
def s6next2 : Except MJError (MJExec × Chunk) := s6exec1.next 50 (mkReq 2)

/-- Operator state after the second S6 `next`. -/
def s6exec2 : MJExec :=
  match s6next2 with
  | .ok (e, _) => e
  | .error _ => s6exec

/-- Third `next` call of S6. -/
def s6next3 : Except MJError (MJExec × Chunk) := s6exec2.next 50 (mkReq 2)

/-! ### Driver-state projection lemmas -/

@[simp] theorem setInnerIter_innerIter (e : MJExec) (it : RowIter) :
    (e.setInnerIter it).innerIter = it := rfl

@[simp] theorem setInnerIter_outerIter (e : MJExec) (it : RowIter) :
    (e.setInnerIter it).outerIter = e.outerIter := rfl

@[simp] theorem setOuterIter_outerIter (e : MJExec) (it : RowIter) :
    (e.setOuterIter it).outerIter = it := rfl

@[simp] theorem setOuterIter_innerIter (e : MJExec) (it : RowIter) :
    (e.setOuterIter it).innerIter = e.innerIter := rfl

@[simp] theorem setOuterIter_innerTable (e : MJExec) (it : RowIter) :
    (e.setOuterIter it).innerTable = e.innerTable := rfl

@[simp] theorem setOuterIter_missLog (e : MJExec) (it : RowIter) :
    (e.setOuterIter it).missLog = e.missLog := rfl

@[simp] theorem setOuterIter_cmpLog (e : MJExec) (it : RowIter) :
    (e.setOuterIter it).cmpLog = e.cmpLog := rfl

@[simp] theorem setOuterIter_core (e : MJExec) (it : RowIter) :
    (e.setOuterIter it).core = e.core := rfl

/-- The inner side is finished: upstream EOF, checker drained, group iterator
at its end.  From such a state `fetchNextInnerGroup` takes its early-return
path and the inner side stays finished. -/
def innerFinished (e : MJExec) : Prop :=
  e.innerTable.executed = true ∧ e.innerTable.checkerExhausted = true
    ∧ e.innerIter.atEnd = true

/-- The state `fetchNextInnerGroup` leaves a finished inner side in: selection
cleared, container reset, group iterator pushed to its end. -/
def innerWipe (t : MJTable) : MJTable :=
  { t with childChunk := t.childChunk.map (fun (c : Chunk) => c.setSel none),
           rowContainer := some ⟨[]⟩,
           groupRowsIter := t.groupRowsIter.map RowIter.reachEnd }

/-- The early-return path of the `fetchNext`-labelled loop. -/
theorem innerGroupLoop_finished (n : Nat) (t : MJTable) (core : ExecCore)
    (h1 : t.executed = true) (h2 : t.checkerExhausted = true) :
    MJTable.innerGroupLoop (n + 1) t core
      = .ok ({ t with groupRowsIter := t.groupRowsIter.map RowIter.reachEnd }, core) := by
  unfold MJTable.innerGroupLoop
  rw [h1, h2]
  simp

/-- `fetchNextInnerGroup` on a finished inner side takes the early return. -/
theorem fetchNextInnerGroup_finished (n : Nat) (t : MJTable) (core : ExecCore)
    (h1 : t.executed = true) (h2 : t.checkerExhausted = true) :
    t.fetchNextInnerGroup (n + 1) core
      = .ok (innerWipe t,
             { core with mem := core.mem - RowContainer.mem t.rowContainer }) := by
  unfold MJTable.fetchNextInnerGroup
  dsimp only
  exact innerGroupLoop_finished n _ _ h1 h2

/-- `innerWipe` keeps the inner side finished and its iterator at the end. -/
theorem innerWipe_finished (t : MJTable) (h1 : t.executed = true)
    (h2 : t.checkerExhausted = true) :
    (innerWipe t).executed = true ∧ (innerWipe t).checkerExhausted = true
      ∧ ((innerWipe t).groupRowsIter.getD (RowIter.ofRows [])).atEnd = true := by
  refine ⟨h1, h2, ?_⟩
  unfold innerWipe
  cases hit : t.groupRowsIter <;>
    simp [hit, RowIter.atEnd, RowIter.reachEnd, RowIter.ofRows]

/-- Lines 343–352 of `Next`: when the inner group iterator is at its end the
comparison result is the default −1 (ascending) or +1 (descending) and the
comparator is not invoked (no comparison is logged, the state is unchanged). -/
theorem computeCmp_atEnd (e : MJExec) (h : e.innerIter.atEnd = true) :
    e.computeCmp = (if e.core.desc then 1 else -1, e) := by
  unfold MJExec.computeCmp
  simp [h]

/-- The outer-behind miss-match loop drains every remaining outer-group row
into the miss-match path (the modelled inner-join `onMissMatch` appends no
output), leaving the output chunk, the comparison log and the inner side
untouched. -/
theorem missMatchLoop_spec (n : Nat) : ∀ (e : MJExec) (req : Chunk)
    (e' : MJExec) (req' : Chunk),
    req.isFull = false →
    MJExec.missMatchLoop n e req = .ok (e', req') →
    req' = req
    ∧ e'.missLog = e.missLog ++ (e.outerIter.rows.drop e.outerIter.pos)
    ∧ e'.cmpLog = e.cmpLog
    ∧ e'.innerTable = e.innerTable
    ∧ e'.outerIter.atEnd = true := by
  induction n with
  | zero =>
    intro e req e' req' hfull h
    simp [MJExec.missMatchLoop] at h
  | succ n ih =>
    intro e req e' req' hfull h
    unfold MJExec.missMatchLoop at h
    cases hc : e.outerIter.current with
    | none =>
      rw [hc] at h
      obtain ⟨he, hr⟩ : e = e' ∧ req = req' := by
        simpa using h
      subst he; subst hr
      have hlen : e.outerIter.rows.length ≤ e.outerIter.pos :=
        List.get?_eq_none.mp hc
      refine ⟨rfl, ?_, rfl, rfl, ?_⟩
      · rw [List.drop_eq_nil_iff.mpr hlen]; simp
      · simp [RowIter.atEnd, hlen]
    | some row =>
      rw [hc, hfull] at h
      simp only [Bool.false_eq_true, if_false] at h
      obtain ⟨hr, hm, hcl, hit, hend⟩ := ih
        ({ e with missLog := e.missLog ++ [row] }.setOuterIter e.outerIter.next)
        req e' req' hfull h
      have hpos : e.outerIter.pos < e.outerIter.rows.length :=
        (List.get?_eq_some.mp hc).1
      have hdrop : e.outerIter.rows.drop e.outerIter.pos
          = row :: e.outerIter.rows.drop (e.outerIter.pos + 1) := by
        rw [List.drop_eq_getElem_cons hpos]
        have := (List.get?_eq_some.mp hc).2
        simp_all
      refine ⟨hr, ?_, hcl, hit, hend⟩
      rw [hm, hdrop]
      simp [RowIter.next]

/-- Transporting the finished-inner-side property along an equality of inner
tables. -/
theorem innerFinished_of_table_eq (e e' : MJExec) (h : e'.innerTable = e.innerTable)
    (hf : innerFinished e) : innerFinished e' := by
  obtain ⟨h1, h2, h3⟩ := hf
  refine ⟨?_, ?_, ?_⟩
  · rw [h]; exact h1
  · rw [h]; exact h2
  · show (e'.innerTable.groupRowsIter.getD (RowIter.ofRows [])).atEnd = true
    rw [h]; exact h3

/-- With the inner side finished, one post-refill step of the main loop either
returns (outer exhausted, nothing logged), or drains outer rows to the
miss-match path and continues — never invoking the comparator and never
appending a joined row. -/
theorem nextStepRest_innerFinished (n : Nat) (e : MJExec) (req : Chunk)
    (hfin : innerFinished e) (hfull : req.isFull = false) :
    (∃ er, MJExec.nextStepRest n e req = .fail er)
    ∨ (∃ e2, MJExec.nextStepRest n e req = .done e2 req
        ∧ e2.cmpLog = e.cmpLog ∧ e2.missLog = e.missLog
        ∧ e.outerIter.rows.drop e.outerIter.pos = [])
    ∨ (∃ e3, MJExec.nextStepRest n e req = .cont e3 req
        ∧ innerFinished e3 ∧ e3.cmpLog = e.cmpLog
        ∧ e3.outerIter.rows.drop e3.outerIter.pos = []
        ∧ ∃ rest0, e3.missLog
            = e.missLog ++ (e.outerIter.rows.drop e.outerIter.pos) ++ rest0) := by
  obtain ⟨hex, hgc, hend⟩ := hfin
  unfold MJExec.nextStepRest
  by_cases ho : e.outerIter.atEnd
  · rw [ho]
    simp only [if_true, Bool.true_and]
    have hdropnil : e.outerIter.rows.drop e.outerIter.pos = [] :=
      List.drop_eq_nil_iff.mpr (by simpa [RowIter.atEnd] using ho)
    rcases hp : MJTable.fetchNextOuterGroup e.outerTable e.core
        ((req.requiredRows : Int) - (req.numRows : Int)) with ⟨t2, c2⟩
    dsimp only
    have hfin2 : innerFinished { e with outerTable := t2, core := c2 } :=
      innerFinished_of_table_eq e _ rfl ⟨hex, hgc, hend⟩
    by_cases hexec : t2.executed
    · rw [if_pos (by simp [hexec])]
      exact Or.inr (Or.inl ⟨_, rfl, rfl, rfl, hdropnil⟩)
    · rw [if_neg (by simp [hexec])]
      rw [computeCmp_atEnd { e with outerTable := t2, core := c2 } hfin2.2.2]
      dsimp only
      by_cases hd : c2.desc
      · rw [if_pos hd, if_neg (by simp [hd]), if_pos (by simp [hd])]
        rcases hm : MJExec.missMatchLoop n { e with outerTable := t2, core := c2 } req
            with er | ⟨e3, req3⟩
        · exact Or.inl ⟨er, rfl⟩
        · obtain ⟨hr3, hm3, hc3, hi3, he3⟩ :=
            missMatchLoop_spec n _ req e3 req3 hfull hm
          subst hr3
          refine Or.inr (Or.inr ⟨e3, rfl, ?_, hc3, ?_, ?_⟩)
          · exact innerFinished_of_table_eq _ _ hi3 hfin2
          · exact List.drop_eq_nil_iff.mpr (by simpa [RowIter.atEnd] using he3)
          · exact ⟨e3.missLog.drop e.missLog.length, by
              rw [hm3, hdropnil]
              simp [RowIter.atEnd]⟩
      · rw [if_neg hd, if_neg (by simp [hd]), if_pos (by simp [hd])]
        rcases hm : MJExec.missMatchLoop n { e with outerTable := t2, core := c2 } req
            with er | ⟨e3, req3⟩
        · exact Or.inl ⟨er, rfl⟩
        · obtain ⟨hr3, hm3, hc3, hi3, he3⟩ :=
            missMatchLoop_spec n _ req e3 req3 hfull hm
          subst hr3
          refine Or.inr (Or.inr ⟨e3, rfl, ?_, hc3, ?_, ?_⟩)
          · exact innerFinished_of_table_eq _ _ hi3 hfin2
          · exact List.drop_eq_nil_iff.mpr (by simpa [RowIter.atEnd] using he3)
          · exact ⟨e3.missLog.drop e.missLog.length, by
              rw [hm3, hdropnil]
              simp [RowIter.atEnd]⟩
  · have ho' : e.outerIter.atEnd = false := by simpa using ho
    simp only [ho', Bool.false_eq_true, if_false, Bool.false_and]
    rw [computeCmp_atEnd _ hend]
    dsimp only
    by_cases hd : e.core.desc
    · rw [if_pos hd, if_neg (by simp [hd]), if_pos (by simp [hd])]
      rcases hm : MJExec.missMatchLoop n e req with er | ⟨e3, req3⟩
      · exact Or.inl ⟨er, rfl⟩
      · obtain ⟨hr3, hm3, hc3, hi3, he3⟩ :=
          missMatchLoop_spec n e req e3 req3 hfull hm
        subst hr3
        refine Or.inr (Or.inr ⟨e3, rfl, ?_, hc3, ?_, [], ?_⟩)
        · exact innerFinished_of_table_eq _ _ hi3 ⟨hex, hgc, hend⟩
        · exact List.drop_eq_nil_iff.mpr (by simpa [RowIter.atEnd] using he3)
        · rw [hm3]; simp
    · rw [if_neg hd, if_neg (by simp [hd]), if_pos (by simp [hd])]
      rcases hm : MJExec.missMatchLoop n e req with er | ⟨e3, req3⟩
      · exact Or.inl ⟨er, rfl⟩
      · obtain ⟨hr3, hm3, hc3, hi3, he3⟩ :=
          missMatchLoop_spec n e req e3 req3 hfull hm
        subst hr3
        refine Or.inr (Or.inr ⟨e3, rfl, ?_, hc3, ?_, [], ?_⟩)
        · exact innerFinished_of_table_eq _ _ hi3 ⟨hex, hgc, hend⟩
        · exact List.drop_eq_nil_iff.mpr (by simpa [RowIter.atEnd] using he3)
        · rw [hm3]; simp

/-- With the inner side finished, a whole loop-body step (inner refill
included) behaves as in `nextStepRest_innerFinished`. -/
theorem nextStep_innerFinished (n : Nat) (e : MJExec) (req : Chunk)
    (hfin : innerFinished e) (hfull : req.isFull = false) :
    (∃ er, MJExec.nextStep (n + 1) e req = .fail er)
    ∨ (∃ e2, MJExec.nextStep (n + 1) e req = .done e2 req
        ∧ e2.cmpLog = e.cmpLog ∧ e2.missLog = e.missLog
        ∧ e.outerIter.rows.drop e.outerIter.pos = [])
    ∨ (∃ e3, MJExec.nextStep (n + 1) e req = .cont e3 req
        ∧ innerFinished e3 ∧ e3.cmpLog = e.cmpLog
        ∧ e3.outerIter.rows.drop e3.outerIter.pos = []
        ∧ ∃ rest0, e3.missLog
            = e.missLog ++ (e.outerIter.rows.drop e.outerIter.pos) ++ rest0) := by
  obtain ⟨hex, hgc, hend⟩ := hfin
  have hw := innerWipe_finished e.innerTable hex hgc
  unfold MJExec.nextStep
  rw [hend]
  simp only [if_true]
  rw [fetchNextInnerGroup_finished n e.innerTable e.core hex hgc]
  simp only []
  exact nextStepRest_innerFinished (n + 1) _ req ⟨hw.1, hw.2.1, hw.2.2⟩ hfull

/-- With the inner side finished, the main loop of `Next` never invokes the
comparator (the comparison log is unchanged), emits no joined row into the
caller chunk, and routes the remaining outer-group rows — in order — to the
miss-match path. -/
theorem nextLoop_innerFinished_spec (fuel : Nat) : ∀ (e : MJExec) (req : Chunk)
    (e' : MJExec) (req' : Chunk),
    innerFinished e → req.isFull = false →
    MJExec.nextLoop fuel e req = .ok (e', req') →
    e'.cmpLog = e.cmpLog ∧ req' = req
    ∧ ∃ rest, e'.missLog
        = e.missLog ++ (e.outerIter.rows.drop e.outerIter.pos) ++ rest := by
  induction fuel with
  | zero =>
    intro e req e' req' _ _ h
    simp [MJExec.nextLoop] at h
  | succ n ih =>
    intro e req e' req' hfin hfull h
    unfold MJExec.nextLoop at h
    rw [hfull] at h
    simp only [Bool.false_eq_true, if_false] at h
    rcases nextStep_innerFinished n e req hfin hfull with
      ⟨er, hs⟩ | ⟨e2, hs, hc2, hm2, hrem⟩ | ⟨e3, hs, hfin3, hc3, hrem3, rest0, hm3⟩
    · rw [hs] at h; simp at h
    · rw [hs] at h
      obtain ⟨hee, hrr⟩ : e2 = e' ∧ req = req' := by simpa using h
      subst hee; subst hrr
      exact ⟨hc2, rfl, [], by simp [hrem, hm2]⟩
    · rw [hs] at h
      simp only [] at h
      obtain ⟨hcl, hrq, rest, hml⟩ := ih e3 req e' req' hfin3 hfull h
      refine ⟨by rw [hcl, hc3], hrq, rest0 ++ rest, ?_⟩
      rw [hml, hm3, hrem3]
      simp

/-! ### Memory-accounting lemmas -/

theorem memUsage_map_setSel (c : Option Chunk) (s : Option (List Nat)) :
    Chunk.memUsage (c.map (fun (x : Chunk) => x.setSel s)) = Chunk.memUsage c := by
  cases c <;> simp [Chunk.memUsage, Chunk.setSel]

theorem memUsage_map_setRequiredRows (c : Option Chunk) (n : Int) (m : Nat) :
    Chunk.memUsage (c.map (fun (x : Chunk) => x.setRequiredRows n m))
      = Chunk.memUsage c := by
  cases c <;> simp [Chunk.memUsage, Chunk.setRequiredRows] <;> split <;> rfl

theorem containerMem_append (rc : Option RowContainer) (ch : Chunk) :
    RowContainer.mem (some ⟨(rc.getD ⟨[]⟩).chunks ++ [ch]⟩)
      = RowContainer.mem rc + Chunk.memUsage (some ch) := by
  cases rc <;> simp [RowContainer.mem, Chunk.memUsage]

/-- `selectNextGroup` only moves the checker and the selection: the chunk's
physical footprint, the container and the side's identity are unchanged. -/
theorem selectNextGroup_shape (t : MJTable) :
    Chunk.memUsage t.selectNextGroup.childChunk = Chunk.memUsage t.childChunk
    ∧ t.selectNextGroup.rowContainer = t.rowContainer
    ∧ t.selectNextGroup.isInner = t.isInner
    ∧ t.selectNextGroup.inited = t.inited
    ∧ t.selectNextGroup.executed = t.executed := by
  unfold MJTable.selectNextGroup
  rcases (t.groupChecker.getD (GroupChecker.initial t.joinKeys)).getNextGroup
    with ⟨⟨b, e2⟩, gc'⟩
  dsimp only
  split
  · exact ⟨rfl, rfl, rfl, rfl, rfl⟩
  · exact ⟨memUsage_map_setSel t.childChunk _, rfl, rfl, rfl, rfl⟩

/-- `fetchNextChunk` accounts exactly the usage delta of the refilled chunk to
the side's tracker and touches no other counter. -/
theorem fetchNextChunk_mem (t : MJTable) (core : ExecCore) :
    ((t.fetchNextChunk core).2).mem
      = core.mem + (Chunk.memUsage ((t.fetchNextChunk core).1).childChunk
          - Chunk.memUsage t.childChunk)
    ∧ ((t.fetchNextChunk core).2).disk = core.disk
    ∧ ((t.fetchNextChunk core).1).rowContainer = t.rowContainer
    ∧ ((t.fetchNextChunk core).1).isInner = t.isInner
    ∧ ((t.fetchNextChunk core).1).inited = t.inited := by
  unfold MJTable.fetchNextChunk
  exact ⟨rfl, rfl, rfl, rfl, rfl⟩

/-- `pickGroupLoop` iterates `selectNextGroup`, so it too leaves footprint,
container and identity unchanged. -/
theorem pickGroupLoop_shape (n : Nat) : ∀ t : MJTable,
    Chunk.memUsage (MJTable.pickGroupLoop n t).childChunk = Chunk.memUsage t.childChunk
    ∧ (MJTable.pickGroupLoop n t).rowContainer = t.rowContainer
    ∧ (MJTable.pickGroupLoop n t).isInner = t.isInner
    ∧ (MJTable.pickGroupLoop n t).inited = t.inited
    ∧ (MJTable.pickGroupLoop n t).executed = t.executed := by
  induction n with
  | zero => intro t; exact ⟨rfl, rfl, rfl, rfl, rfl⟩
  | succ n ih =>
    intro t
    unfold MJTable.pickGroupLoop
    split
    · exact ⟨rfl, rfl, rfl, rfl, rfl⟩
    · obtain ⟨s1, s2, s3, s4, s5⟩ := selectNextGroup_shape t
      dsimp only
      split
      · obtain ⟨i1, i2, i3, i4, i5⟩ := ih t.selectNextGroup
        exact ⟨by rw [i1, s1], by rw [i2, s2], by rw [i3, s3],
          by rw [i4, s4], by rw [i5, s5]⟩
      · exact ⟨s1, s2, s3, s4, s5⟩

theorem memUsage_chunkD (t : MJTable) (m : Nat) :
    Chunk.memUsage (some (t.chunkD m)) = Chunk.memUsage t.childChunk := by
  cases hc : t.childChunk <;> simp [MJTable.chunkD, hc, Chunk.memUsage, Chunk.empty]

theorem memUsage_empty (m : Nat) : Chunk.memUsage (some (Chunk.empty m)) = 0 := rfl

/-- The accumulation loop keeps the side's total charge consistent: whatever
invariant `mem = C + chunk + container` held on entry holds on exit, and the
disk counter and side identity are untouched. -/
theorem innerAccumLoop_mem (fuel : Nat) : ∀ (b : Bool) (t : MJTable) (core : ExecCore)
    (t' : MJTable) (core' : ExecCore) (C : Int),
    core.mem = C + Chunk.memUsage t.childChunk + RowContainer.mem t.rowContainer →
    MJTable.innerAccumLoop fuel b t core = .ok (t', core') →
    core'.mem = C + Chunk.memUsage t'.childChunk + RowContainer.mem t'.rowContainer
    ∧ core'.disk = core.disk
    ∧ t'.isInner = t.isInner ∧ t'.inited = t.inited := by
  induction fuel with
  | zero =>
    intro b t core t' core' C hmem h
    simp [MJTable.innerAccumLoop] at h
  | succ n ih =>
    intro b t core t' core' C hmem h
    unfold MJTable.innerAccumLoop at h
    split at h
    · -- the loop body runs
      cases b with
      | true =>
        simp only [Bool.not_true, Bool.false_eq_true, if_false, Bool.and_false] at h
        split at h
        · have hq := Except.ok.inj h
          have h1 : (t.fetchNextChunk core).1 = t' := by rw [hq]
          have h2 : (t.fetchNextChunk core).2 = core' := by rw [hq]
          rw [← h1, ← h2]
          refine ⟨?_, ?_, ?_, ?_⟩
          · rw [(fetchNextChunk_mem _ _).1, (fetchNextChunk_mem _ _).2.2.1]
            omega
          · exact (fetchNextChunk_mem _ _).2.1
          · exact (fetchNextChunk_mem _ _).2.2.2.1
          · exact (fetchNextChunk_mem _ _).2.2.2.2
        · obtain ⟨i1, i2, i3, i4⟩ := ih true _ _ t' core' C (by
            dsimp only
            rw [(fetchNextChunk_mem _ _).1, (fetchNextChunk_mem _ _).2.2.1]
            omega) h
          refine ⟨i1, ?_, ?_, ?_⟩
          · rw [i2]; exact (fetchNextChunk_mem t core).2.1
          · rw [i3]; dsimp only; exact (fetchNextChunk_mem t core).2.2.2.1
          · rw [i4]; dsimp only; exact (fetchNextChunk_mem t core).2.2.2.2
      | false =>
        simp only [Bool.not_false, if_true, Bool.and_true] at h
        split at h
        · have hq := Except.ok.inj h
          have h1 : _ = t' := congrArg Prod.fst hq
          have h2 : _ = core' := congrArg Prod.snd hq
          rw [← h1, ← h2]
          refine ⟨?_, ?_, ?_, ?_⟩
          · rw [(fetchNextChunk_mem _ _).1, (fetchNextChunk_mem _ _).2.2.1]
            dsimp only
            rw [containerMem_append, memUsage_chunkD, memUsage_empty]
            omega
          · rw [(fetchNextChunk_mem _ _).2.1]
          · rw [(fetchNextChunk_mem _ _).2.2.2.1]
          · rw [(fetchNextChunk_mem _ _).2.2.2.2]
        · obtain ⟨i1, i2, i3, i4⟩ := ih false _ _ t' core' C (by
            split
            · rw [(selectNextGroup_shape _).1, (selectNextGroup_shape _).2.1]
              dsimp only
              rw [(fetchNextChunk_mem _ _).1, (fetchNextChunk_mem _ _).2.2.1]
              dsimp only
              rw [containerMem_append, memUsage_chunkD, memUsage_empty]
              omega
            · dsimp only
              rw [(fetchNextChunk_mem _ _).1, (fetchNextChunk_mem _ _).2.2.1]
              dsimp only
              rw [containerMem_append, memUsage_chunkD, memUsage_empty]
              omega) h
          refine ⟨i1, ?_, ?_, ?_⟩
          · rw [i2]
            rw [(fetchNextChunk_mem _ _).2.1]
          · rw [i3]
            split
            · rw [(selectNextGroup_shape _).2.2.1]
              dsimp only
              rw [(fetchNextChunk_mem _ _).2.2.2.1]
            · dsimp only
              rw [(fetchNextChunk_mem _ _).2.2.2.1]
          · rw [i4]
            split
            · rw [(selectNextGroup_shape _).2.2.2.1]
              dsimp only
              rw [(fetchNextChunk_mem _ _).2.2.2.2]
            · dsimp only
              rw [(fetchNextChunk_mem _ _).2.2.2.2]
    · obtain ⟨h1, h2⟩ : t = t' ∧ core = core' := by simpa using h
      subst h1; subst h2
      exact ⟨hmem, rfl, rfl, rfl⟩

/-- The `fetchNext`-labelled loop preserves the side's charge invariant. -/
theorem innerGroupLoop_mem (fuel : Nat) : ∀ (t : MJTable) (core : ExecCore)
    (t' : MJTable) (core' : ExecCore) (C : Int),
    core.mem = C + Chunk.memUsage t.childChunk + RowContainer.mem t.rowContainer →
    MJTable.innerGroupLoop fuel t core = .ok (t', core') →
    core'.mem = C + Chunk.memUsage t'.childChunk + RowContainer.mem t'.rowContainer
    ∧ core'.disk = core.disk
    ∧ t'.isInner = t.isInner ∧ t'.inited = t.inited := by
  induction fuel with
  | zero =>
    intro t core t' core' C hmem h
    simp [MJTable.innerGroupLoop] at h
  | succ n ih =>
    intro t core t' core' C hmem h
    unfold MJTable.innerGroupLoop at h
    split at h
    · -- early return: only the group iterator moves
      obtain ⟨h1, h2⟩ :
          ({ t with groupRowsIter := t.groupRowsIter.map RowIter.reachEnd } : MJTable) = t'
            ∧ core = core' := by simpa using h
      subst h1; subst h2
      exact ⟨hmem, rfl, rfl, rfl⟩
    · obtain ⟨p1, p2, p3, p4, p5⟩ := pickGroupLoop_shape (t.numGroups + 1) t
      dsimp only at h
      split at h
      next er heq => cases h
      next q heq =>
        have hrel : core.mem
            = C + Chunk.memUsage (MJTable.pickGroupLoop (t.numGroups + 1) t).childChunk
              + RowContainer.mem (MJTable.pickGroupLoop (t.numGroups + 1) t).rowContainer := by
          rw [p1, p2]; exact hmem
        obtain ⟨a1, a2, a3, a4⟩ := innerAccumLoop_mem (n + 1) _ _ _ _ _ C hrel heq
        split at h
        · obtain ⟨i1, i2, i3, i4⟩ := ih q.1 q.2 t' core' C a1 h
          exact ⟨i1, (i2.trans a2), (i3.trans (a3.trans p3)), (i4.trans (a4.trans p4))⟩
        · have hq := Except.ok.inj h
          rw [Prod.mk.injEq] at hq
          obtain ⟨h1, h2⟩ := hq
          rw [← h2]
          refine ⟨?_, a2, ?_, ?_⟩
          · rw [← h1]
            split <;> (dsimp only; exact a1)
          · rw [← h1]
            split <;> (dsimp only; exact a3.trans p3)
          · rw [← h1]
            split <;> (dsimp only; exact a4.trans p4)

/-- `fetchNextInnerGroup` preserves the side's charge invariant: the container
reset is released from the ledger before the loop re-accumulates. -/
theorem fetchNextInnerGroup_mem (fuel : Nat) (t : MJTable) (core : ExecCore)
    (t' : MJTable) (core' : ExecCore) (C : Int)
    (hmem : core.mem = C + Chunk.memUsage t.childChunk + RowContainer.mem t.rowContainer)
    (h : t.fetchNextInnerGroup fuel core = .ok (t', core')) :
    core'.mem = C + Chunk.memUsage t'.childChunk + RowContainer.mem t'.rowContainer
    ∧ core'.disk = core.disk
    ∧ t'.isInner = t.isInner ∧ t'.inited = t.inited := by
  unfold MJTable.fetchNextInnerGroup at h
  obtain ⟨i1, i2, i3, i4⟩ := innerGroupLoop_mem fuel _ _ t' core' C (by
    dsimp only
    rw [memUsage_map_setSel]
    have : RowContainer.mem (some ⟨[]⟩) = 0 := rfl
    rw [this]
    omega) h
  exact ⟨i1, i2, i3, i4⟩

/-- `fetchNextOuterGroup` preserves the outer side's charge invariant and
leaves the disk counter, container and identity unchanged. -/
theorem fetchNextOuterGroup_mem (t : MJTable) (core : ExecCore) (k : Int) (C : Int)
    (hmem : core.mem = C + Chunk.memUsage t.childChunk) :
    ((t.fetchNextOuterGroup core k).2).mem
      = C + Chunk.memUsage ((t.fetchNextOuterGroup core k).1).childChunk
    ∧ ((t.fetchNextOuterGroup core k).2).disk = core.disk
    ∧ ((t.fetchNextOuterGroup core k).1).isInner = t.isInner
    ∧ ((t.fetchNextOuterGroup core k).1).inited = t.inited
    ∧ ((t.fetchNextOuterGroup core k).1).rowContainer = t.rowContainer := by
  have hsel : ∀ t0 : MJTable,
      Chunk.memUsage t0.selectNextGroup.childChunk = Chunk.memUsage t0.childChunk
      ∧ t0.selectNextGroup.rowContainer = t0.rowContainer
      ∧ t0.selectNextGroup.isInner = t0.isInner
      ∧ t0.selectNextGroup.inited = t0.inited
      ∧ t0.selectNextGroup.executed = t0.executed := selectNextGroup_shape
  unfold MJTable.fetchNextOuterGroup
  by_cases h1 : t.executed <;> by_cases h2 : t.checkerExhausted <;>
    simp only [h1, h2, Bool.true_and, Bool.and_true, Bool.false_and, Bool.and_false,
      Bool.not_true, Bool.not_false, Bool.false_eq_true, if_true, if_false]
  · exact ⟨hmem, trivial, trivial, trivial, trivial⟩
  · -- upstream alive but checker not drained: straight to select
    refine ⟨?_, trivial, ?_, ?_, ?_⟩
    · rw [(hsel t).1]; exact hmem
    · exact (hsel t).2.2.1
    · exact (hsel t).2.2.2.1
    · exact (hsel t).2.1
  · -- checker drained, upstream alive: fetch (with or without the hint)
    split
    · -- hint configuration
      split
      · dsimp only
        rw [if_pos rfl]
        dsimp only
        refine ⟨?_, ?_, ?_, ?_, ?_⟩
        · rw [(fetchNextChunk_mem _ _).1]
          have := memUsage_map_setRequiredRows t.childChunk k core.maxChunkSize
          dsimp only at this ⊢
          rw [this]
          omega
        · rw [(fetchNextChunk_mem _ _).2.1]
        · rw [(fetchNextChunk_mem _ _).2.2.2.1]
        · rw [(fetchNextChunk_mem _ _).2.2.2.2]
        · rw [(fetchNextChunk_mem _ _).2.2.1]
      · dsimp only
        simp only [Bool.false_eq_true, if_false]
        refine ⟨?_, ?_, ?_, ?_, ?_⟩
        · rw [(hsel _).1]
          dsimp only
          rw [(fetchNextChunk_mem _ _).1]
          have := memUsage_map_setRequiredRows t.childChunk k core.maxChunkSize
          dsimp only at this ⊢
          rw [this]
          omega
        · rw [(fetchNextChunk_mem _ _).2.1]
        · rw [(hsel _).2.2.1]
          dsimp only
          rw [(fetchNextChunk_mem _ _).2.2.2.1]
        · rw [(hsel _).2.2.2.1]
          dsimp only
          rw [(fetchNextChunk_mem _ _).2.2.2.2]
        · rw [(hsel _).2.1]
          dsimp only
          rw [(fetchNextChunk_mem _ _).2.2.1]
    · -- no hint
      split
      · dsimp only
        rw [if_pos rfl]
        dsimp only
        refine ⟨?_, ?_, ?_, ?_, ?_⟩
        · rw [(fetchNextChunk_mem _ _).1]
          omega
        · rw [(fetchNextChunk_mem _ _).2.1]
        · rw [(fetchNextChunk_mem _ _).2.2.2.1]
        · rw [(fetchNextChunk_mem _ _).2.2.2.2]
        · rw [(fetchNextChunk_mem _ _).2.2.1]
      · dsimp only
        simp only [Bool.false_eq_true, if_false]
        refine ⟨?_, ?_, ?_, ?_, ?_⟩
        · rw [(hsel _).1]
          dsimp only
          rw [(fetchNextChunk_mem _ _).1]
          omega
        · rw [(fetchNextChunk_mem _ _).2.1]
        · rw [(hsel _).2.2.1]
          dsimp only
          rw [(fetchNextChunk_mem _ _).2.2.2.1]
        · rw [(hsel _).2.2.2.1]
          dsimp only
          rw [(fetchNextChunk_mem _ _).2.2.2.2]
        · rw [(hsel _).2.1]
          dsimp only
          rw [(fetchNextChunk_mem _ _).2.2.1]
  · -- upstream exhausted with runs left: straight to select
    refine ⟨?_, trivial, ?_, ?_, ?_⟩
    · rw [(hsel t).1]; exact hmem
    · exact (hsel t).2.2.1
    · exact (hsel t).2.2.2.1
    · exact (hsel t).2.1

/-- The operator-level accounting invariant: the operator's memory tracker
holds exactly the two sides' current batches plus the inner store, the disk
tracker is at zero, and the sides keep their identity and initialised state. -/
def MemInv (e : MJExec) : Prop :=
  e.core.mem = Chunk.memUsage e.innerTable.childChunk
      + Chunk.memUsage e.outerTable.childChunk
      + RowContainer.mem e.innerTable.rowContainer
  ∧ e.core.disk = 0
  ∧ e.innerTable.isInner = true
  ∧ e.outerTable.isInner = false
  ∧ e.innerTable.inited = true
  ∧ e.outerTable.inited = true

/-- The invariant, read off a step outcome. -/
def stepResInv : StepRes → Prop
  | .done e _ => MemInv e
  | .cont e _ => MemInv e
  | .fail _ => True

theorem computeCmp_memInv (e : MJExec) : MemInv (e.computeCmp).2 ↔ MemInv e := by
  unfold MJExec.computeCmp MJExec.compare
  split
  · exact Iff.rfl
  · exact Iff.rfl

theorem missMatchLoop_memInv (n : Nat) : ∀ (e : MJExec) (req : Chunk)
    (e' : MJExec) (req' : Chunk),
    MJExec.missMatchLoop n e req = .ok (e', req') → MemInv e → MemInv e' := by
  induction n with
  | zero =>
    intro e req e' req' h _
    simp [MJExec.missMatchLoop] at h
  | succ n ih =>
    intro e req e' req' h hinv
    unfold MJExec.missMatchLoop at h
    split at h
    · obtain ⟨h1, h2⟩ : e = e' ∧ req = req' := by simpa using h
      subst h1; exact hinv
    · split at h
      · obtain ⟨h1, h2⟩ : e = e' ∧ req = req' := by simpa using h
        subst h1; exact hinv
      · exact ih _ _ _ _ h hinv

theorem innerMatchLoop_memInv (n : Nat) : ∀ (e : MJExec) (req : Chunk) (row : Row)
    (e' : MJExec) (req' : Chunk) (s : Bool),
    MJExec.innerMatchLoop n e req row = .ok (e', req', s) → MemInv e → MemInv e' := by
  induction n with
  | zero =>
    intro e req row e' req' s h _
    simp [MJExec.innerMatchLoop] at h
  | succ n ih =>
    intro e req row e' req' s h hinv
    unfold MJExec.innerMatchLoop at h
    dsimp only at h
    split at h
    · have hq := Except.ok.inj h
      rw [Prod.mk.injEq, Prod.mk.injEq] at hq
      rw [← hq.1]; exact hinv
    · split at h
      · split at h
        · have hq := Except.ok.inj h
          rw [Prod.mk.injEq, Prod.mk.injEq] at hq
          rw [← hq.1]; exact hinv
        · have hq := Except.ok.inj h
          rw [Prod.mk.injEq, Prod.mk.injEq] at hq
          rw [← hq.1]; exact hinv
      · exact ih _ _ _ _ _ _ h hinv

theorem outerRowsLoop_memInv (n : Nat) : ∀ (e : MJExec) (req : Chunk)
    (e' : MJExec) (req' : Chunk) (s : Bool),
    MJExec.outerRowsLoop n e req = .ok (e', req', s) → MemInv e → MemInv e' := by
  induction n with
  | zero =>
    intro e req e' req' s h _
    simp [MJExec.outerRowsLoop] at h
  | succ n ih =>
    intro e req e' req' s h hinv
    unfold MJExec.outerRowsLoop at h
    split at h
    · have hq := Except.ok.inj h
      rw [Prod.mk.injEq, Prod.mk.injEq] at hq
      rw [← hq.1]; exact hinv
    · split at h
      · have hq := Except.ok.inj h
        rw [Prod.mk.injEq, Prod.mk.injEq] at hq
        rw [← hq.1]; exact hinv
      · split at h
        · exact ih _ _ _ _ _ h hinv
        · split at h
          next er heq => cases h
          next e2 req2 s2 heq =>
            have hm : MemInv e2 :=
              innerMatchLoop_memInv (n + 1) _ _ _ _ _ _ heq hinv
            split at h
            · have hq := Except.ok.inj h
              rw [Prod.mk.injEq, Prod.mk.injEq] at hq
              rw [← hq.1]; exact hm
            · cases hB : !e2.hasMatch <;> rw [hB] at h <;>
                simp only [Bool.false_eq_true, if_false, if_true] at h <;>
                exact ih _ _ _ _ _ h hm

theorem nextStepRest_memInv (n : Nat) (e : MJExec) (req : Chunk) (hinv : MemInv e) :
    stepResInv (MJExec.nextStepRest n e req) := by
  obtain ⟨hm, hd, hii, hoi, hin, hon⟩ := hinv
  unfold MJExec.nextStepRest
  by_cases ho : e.outerIter.atEnd <;>
    simp only [ho, if_true, Bool.true_and, Bool.false_eq_true, if_false, Bool.false_and]
  · -- the outer side is refilled first
    obtain ⟨f1, f2, f3, f4, f5⟩ := fetchNextOuterGroup_mem e.outerTable e.core
      ((req.requiredRows : Int) - (req.numRows : Int))
      (Chunk.memUsage e.innerTable.childChunk + RowContainer.mem e.innerTable.rowContainer)
      (by omega)
    have hinv2 : MemInv { e with
        outerTable := (e.outerTable.fetchNextOuterGroup e.core
          ((req.requiredRows : Int) - (req.numRows : Int))).1,
        core := (e.outerTable.fetchNextOuterGroup e.core
          ((req.requiredRows : Int) - (req.numRows : Int))).2 } := by
      refine ⟨by dsimp only; omega, by dsimp only; rw [f2]; exact hd,
        hii, by dsimp only; rw [f3]; exact hoi, hin, by dsimp only; rw [f4]; exact hon⟩
    split
    · exact hinv2
    · split
      · exact (computeCmp_memInv _).mpr hinv2
      · split
        · split
          next er heq => trivial
          next e2 req2 heq =>
            exact missMatchLoop_memInv n _ _ _ _ heq
              ((computeCmp_memInv _).mpr hinv2)
        · split
          next er heq => trivial
          next e2 req2 s2 heq =>
            have hm2 : MemInv e2 :=
              outerRowsLoop_memInv n _ _ _ _ _ heq
                ((computeCmp_memInv _).mpr hinv2)
            split
            · exact hm2
            · exact hm2
  · -- no outer refill
    have hinv1 : MemInv e := ⟨hm, hd, hii, hoi, hin, hon⟩
    split
    · exact (computeCmp_memInv _).mpr hinv1
    · split
      · split
        next er heq => trivial
        next e2 req2 heq =>
          exact missMatchLoop_memInv n _ _ _ _ heq
            ((computeCmp_memInv _).mpr hinv1)
      · split
        next er heq => trivial
        next e2 req2 s2 heq =>
          have hm2 : MemInv e2 :=
            outerRowsLoop_memInv n _ _ _ _ _ heq
              ((computeCmp_memInv _).mpr hinv1)
          split
          · exact hm2
          · exact hm2

theorem nextStep_memInv (n : Nat) (e : MJExec) (req : Chunk) (hinv : MemInv e) :
    stepResInv (MJExec.nextStep n e req) := by
  unfold MJExec.nextStep
  by_cases hend : e.innerIter.atEnd <;>
    simp only [hend, if_true, Bool.false_eq_true, if_false]
  · rcases heq : MJTable.fetchNextInnerGroup n e.innerTable e.core with er | ⟨t2, c2⟩
    · trivial
    · obtain ⟨hm, hd, hii, hoi, hin, hon⟩ := hinv
      obtain ⟨f1, f2, f3, f4⟩ := fetchNextInnerGroup_mem n e.innerTable e.core t2 c2
        (Chunk.memUsage e.outerTable.childChunk) (by omega) heq
      exact nextStepRest_memInv n _ req
        ⟨by dsimp only; omega, by dsimp only; rw [f2]; exact hd,
          by dsimp only; rw [f3]; exact hii, hoi,
          by dsimp only; rw [f4]; exact hin, hon⟩
  · exact nextStepRest_memInv n e req hinv

theorem nextLoop_memInv (fuel : Nat) : ∀ (e : MJExec) (req : Chunk)
    (e' : MJExec) (req' : Chunk),
    MemInv e → MJExec.nextLoop fuel e req = .ok (e', req') → MemInv e' := by
  induction fuel with
  | zero =>
    intro e req e' req' _ h
    simp [MJExec.nextLoop] at h
  | succ n ih =>
    intro e req e' req' hinv h
    unfold MJExec.nextLoop at h
    split at h
    · obtain ⟨h1, h2⟩ : e = e' ∧ req = req' := by simpa using h
      subst h1; exact hinv
    · have hs := nextStep_memInv (n + 1) e req hinv
      split at h
      next er heq => cases h
      next e2 req2 heq =>
        rw [heq] at hs
        obtain ⟨h1, h2⟩ : e2 = e' ∧ req2 = req' := by simpa using h
        subst h1; exact hs
      next e3 req3 heq =>
        rw [heq] at hs
        exact ih _ _ _ _ hs h

/-- `Open` establishes the accounting invariant (both sides charge their empty
batches, the fresh trackers start at zero). -/
theorem openExec_memInv (maxCS : Nat) (df oj : Bool) (ik okk : List Nat)
    (fs : List (Row → Bool)) (istream ostream : List (List (Option Int))) :
    MemInv ((mkExec maxCS df oj ik okk fs istream ostream).openExec) := by
  exact ⟨rfl, rfl, rfl, rfl, rfl, rfl⟩

/-- Operator states reachable by `Open` followed by any sequence of successful
`Next` calls. -/
inductive Reach : MJExec → Prop
  | openEx (maxCS : Nat) (df oj : Bool) (ik okk : List Nat)
      (fs : List (Row → Bool)) (istream ostream : List (List (Option Int))) :
      Reach ((mkExec maxCS df oj ik okk fs istream ostream).openExec)
  | step (e e' : MJExec) (fuel : Nat) (req out : Chunk) :
      Reach e → MJExec.next fuel e req = .ok (e', out) → Reach e'

/-- Every reachable state satisfies the accounting invariant. -/
theorem reach_memInv (e : MJExec) (h : Reach e) : MemInv e := by
  induction h with
  | openEx maxCS df oj ik okk fs istream ostream =>
    exact openExec_memInv maxCS df oj ik okk fs istream ostream
  | step e e' fuel req out _ hn ih =>
    exact nextLoop_memInv fuel e req.reset e' out ih hn

/-! ### Group-run soundness and NULL-key handling -/

/-- All rows of the half-open range `[b, e2)` share the key of row `b`. -/
def runConstantKey (ks : List Nat) (rows : List Row) (b e2 : Nat) : Prop :=
  ∀ j, b ≤ j → j < e2 → keyOf ks (rows.getD j default) = keyOf ks (rows.getD b default)

theorem splitRunsAux_sound (ks : List Nat) (rows : List Row) :
    ∀ (rs : List Row) (k : Key) (start i : Nat),
    rows.drop i = rs →
    start < i → i ≤ rows.length →
    (∀ j, start ≤ j → j < i → keyOf ks (rows.getD j default) = k) →
    ∀ be ∈ splitRunsAux ks rs k start i,
      start ≤ be.1 ∧ be.1 < be.2 ∧ be.2 ≤ rows.length
      ∧ runConstantKey ks rows be.1 be.2 := by
  intro rs
  induction rs with
  | nil =>
    intro k start i hdrop hsi hilen hrun be hbe
    simp only [splitRunsAux, List.mem_singleton] at hbe
    subst hbe
    dsimp only
    refine ⟨Nat.le_refl _, hsi, hilen, ?_⟩
    intro j hj1 hj2
    rw [hrun j hj1 hj2, hrun start (Nat.le_refl _) hsi]
  | cons r rs ih =>
    intro k start i hdrop hsi hilen hrun be hbe
    have hi : i < rows.length := by
      have hl := congrArg List.length hdrop
      simp only [List.length_drop, List.length_cons] at hl
      omega
    have hri : rows.getD i default = r := by
      have h1 : (rows.drop i)[0]? = some r := by rw [hdrop]; simp
      rw [List.getElem?_drop] at h1
      simp only [Nat.add_zero] at h1
      simp [List.getD_eq_getElem?_getD, h1]
    have hdrop' : rows.drop (i + 1) = rs := by
      have ht := congrArg List.tail hdrop
      rw [List.tail_drop] at ht
      exact ht
    simp only [splitRunsAux] at hbe
    split at hbe
    · -- the run continues
      next hkey =>
        have hrun' : ∀ j, start ≤ j → j < i + 1 → keyOf ks (rows.getD j default) = k := by
          intro j hj1 hj2
          rcases Nat.lt_or_ge j i with hj | hj
          · exact hrun j hj1 hj
          · have hji : j = i := by omega
            subst hji
            rw [hri]
            exact hkey
        exact ih k start (i + 1) hdrop' (by omega) (by omega) hrun' be hbe
    · -- a new run starts at `i`
      next hkey =>
        rcases List.mem_cons.mp hbe with hbe | hbe
        · subst hbe
          dsimp only
          refine ⟨Nat.le_refl _, hsi, by omega, ?_⟩
          intro j hj1 hj2
          rw [hrun j hj1 hj2, hrun start (Nat.le_refl _) hsi]
        · have hrun' : ∀ j, i ≤ j → j < i + 1 → keyOf ks (rows.getD j default) = keyOf ks r := by
            intro j hj1 hj2
            have hji : j = i := by omega
            subst hji
            rw [hri]
          obtain ⟨hb1, hb2, hb3, hb4⟩ :=
            ih (keyOf ks r) i (i + 1) hdrop' (by omega) (by omega) hrun' be hbe
          exact ⟨by omega, hb2, hb3, hb4⟩

/-- Every run recorded by the group checker's split is a non-empty in-bounds
range of rows sharing one key. -/
theorem splitRuns_sound (ks : List Nat) (rows : List Row) :
    ∀ be ∈ splitRuns ks rows,
      be.1 < be.2 ∧ be.2 ≤ rows.length ∧ runConstantKey ks rows be.1 be.2 := by
  intro be hbe
  cases rows with
  | nil => simp [splitRuns] at hbe
  | cons r rs =>
    simp only [splitRuns] at hbe
    have h := splitRunsAux_sound ks (r :: rs) rs (keyOf ks r) 0 1 rfl
      Nat.zero_lt_one (by simp) (by
        intro j hj1 hj2
        have hj0 : j = 0 := by omega
        subst hj0
        rfl) be hbe
    exact ⟨h.2.1, h.2.2.1, h.2.2.2⟩

/-- A row's NULL-key test, through its key vector. -/
theorem hasNull_eq_key_any (t : MJTable) (r : Row) :
    t.hasNullInJoinKey r = (keyOf t.joinKeys r).any Option.isNone := by
  unfold MJTable.hasNullInJoinKey keyOf
  induction t.joinKeys with
  | nil => rfl
  | cons k ksr ih =>
    simp only [List.any_cons, List.map_cons]
    rw [ih]

/-- On the inner side, a run whose first row has a NULL join key is dropped
before any comparison: the selection stays empty and the chunk is untouched. -/
theorem selectNextGroup_null_dropped (t : MJTable)
    (hinner : t.isInner = true)
    (hnull : t.hasNullInJoinKey ((t.childChunk.getD (Chunk.empty 0)).getRow
      ((t.groupChecker.getD (GroupChecker.initial t.joinKeys)).getNextGroup.1.1)) = true) :
    t.selectNextGroup.groupRowsSelected = [] ∧ t.selectNextGroup.childChunk = t.childChunk := by
  unfold MJTable.selectNextGroup
  dsimp only
  rw [if_pos]
  · exact ⟨rfl, rfl⟩
  · rw [Bool.and_eq_true]
    exact ⟨hinner, hnull⟩

/-- On the inner side, every row index an un-dropped `selectNextGroup` selects
denotes a row with no NULL in any join-key column: the whole run shares the
first row's key, and a run opening on a NULL key selects nothing. -/
theorem selectNextGroup_inner_no_null (t : MJTable) (gc : GroupChecker) (c : Chunk)
    (hinner : t.isInner = true)
    (hgc : t.groupChecker = some gc)
    (hc : t.childChunk = some c) (hsel : c.sel = none)
    (hmemg : ∀ g ∈ gc.groups, g ∈ splitRuns t.joinKeys c.rows) :
    ∀ i ∈ t.selectNextGroup.groupRowsSelected,
      t.hasNullInJoinKey (c.rows.getD i default) = false := by
  have hrow : ∀ b, c.getRow b = c.rows.getD b default := by
    intro b
    unfold Chunk.getRow
    rw [hsel]
  intro i hi
  unfold MJTable.selectNextGroup GroupChecker.getNextGroup at hi
  rw [hgc] at hi
  simp only [Option.getD_some] at hi
  rcases hgroups : gc.groups with _ | ⟨⟨b, e2⟩, gs⟩ <;> rw [hgroups] at hi <;> dsimp only at hi
  · split at hi
    · simp at hi
    · simp at hi
  · rw [hc] at hi
    simp only [Option.getD_some] at hi
    split at hi
    · simp at hi
    · next hnotnull =>
      have hmem : ((b, e2) : Nat × Nat) ∈ splitRuns t.joinKeys c.rows :=
        hmemg (b, e2) (by rw [hgroups]; exact List.mem_cons_self _ _)
      obtain ⟨hbe, hlen, hconst⟩ := splitRuns_sound t.joinKeys c.rows (b, e2) hmem
      simp only [List.mem_map, List.mem_range] at hi
      obtain ⟨j, hj, hij⟩ := hi
      subst hij
      have hkey : keyOf t.joinKeys (c.rows.getD (b + j) default)
          = keyOf t.joinKeys (c.rows.getD b default) :=
        hconst (b + j) (by omega) (by omega)
      rw [hasNull_eq_key_any, hkey, ← hasNull_eq_key_any]
      cases hB : t.hasNullInJoinKey (c.rows.getD b default) with
      | false => rfl
      | true =>
        exfalso
        apply hnotnull
        rw [Bool.and_eq_true]
        refine ⟨hinner, ?_⟩
        rw [hrow b]
        exact hB

/-! ### Output order -/

theorem numRows_of_sel_none (c : Chunk) (hsel : c.sel = none) :
    c.numRows = c.rows.length := by
  unfold Chunk.numRows Chunk.logicalRows
  rw [hsel]

/-- With the iterator rewound on a non-empty group and enough room, one
`tryToMatchInners` call appends the whole group joined with the outer row, in
the group's order, and reports a match. -/
theorem tryToMatchInners_all (row : Row) (it : RowIter) (req : Chunk)
    (hpos : it.pos = 0) (hlen : 0 < it.rows.length) (hsel : req.sel = none)
    (hroom : req.rows.length + it.rows.length ≤ req.requiredRows) :
    tryToMatchInners row it req
      = (true, { it with pos := it.rows.length },
         req.appendRows (it.rows.map (joinRow row))) := by
  have hnum := numRows_of_sel_none req hsel
  unfold tryToMatchInners
  dsimp only
  have hmin : min (req.requiredRows - req.numRows) (it.rows.length - it.pos)
      = it.rows.length := by
    rw [hnum, hpos]
    omega
  rw [hmin, hpos]
  simp [hlen]

/-- With the inner iterator rewound on a non-empty group and enough budget,
`innerMatchLoop` appends the whole inner group (joined with the outer row, in
inner order), sets the match flag, and leaves the iterator at its end without
suspending. -/
theorem innerMatchLoop_all (n : Nat) (e : MJExec) (req : Chunk) (row : Row)
    (hpos : e.innerIter.pos = 0) (hlen : 0 < e.innerIter.rows.length)
    (hsel : req.sel = none)
    (hroom : req.rows.length + e.innerIter.rows.length ≤ req.requiredRows) :
    MJExec.innerMatchLoop (n + 2) e req row
      = .ok ({ e.setInnerIter { e.innerIter with pos := e.innerIter.rows.length } with
               hasMatch := e.hasMatch || true, hasNull := e.hasNull || false },
             req.appendRows (e.innerIter.rows.map (joinRow row)), false) := by
  have hend : e.innerIter.atEnd = false := by
    unfold RowIter.atEnd
    rw [hpos, decide_eq_false_iff_not]
    omega
  have hend2 : ({ e.innerIter with pos := e.innerIter.rows.length } : RowIter).atEnd
      = true := by
    unfold RowIter.atEnd
    simp
  unfold MJExec.innerMatchLoop
  dsimp only
  simp only [hend, Bool.false_eq_true, if_false]
  rw [tryToMatchInners_all row e.innerIter req hpos hlen hsel hroom]
  dsimp only
  by_cases hf : (req.appendRows (e.innerIter.rows.map (joinRow row))).isFull = true
  · rw [if_pos hf, if_pos hend2]
    rfl
  · rw [if_neg hf]
    unfold MJExec.innerMatchLoop
    dsimp only
    rw [if_pos]
    · rfl
    · simp only [MJExec.innerIter, MJExec.setInnerIter, Option.getD_some]
      exact hend2

/-- The driver state after one fully matched outer row: match flags cleared,
the inner group iterator rewound, the outer group iterator advanced. -/
def stepOuter (e : MJExec) : MJExec :=
  { e with
    hasMatch := false,
    hasNull := false,
    innerTable := { e.innerTable with groupRowsIter := some ⟨e.innerIter.rows, 0⟩ },
    outerTable := { e.outerTable with groupRowsIter := some ⟨e.outerIter.rows, e.outerIter.pos + 1⟩ } }

/-- With the inner group iterator rewound on a non-empty group, no pending
match flag, every remaining outer-group row passing its filter, and enough
output budget, `outerRowsLoop` appends to the output, for each remaining outer
row in outer order, the whole inner group joined with it in inner order. -/
theorem outerRowsLoop_ordered :
    ∀ (n : Nat) (e : MJExec) (req : Chunk),
    e.hasMatch = false →
    e.innerIter.pos = 0 →
    0 < e.innerIter.rows.length →
    req.sel = none →
    (∀ r ∈ e.outerIter.rows.drop e.outerIter.pos,
      e.outerTable.filtersSelected.getD r.idx true = true) →
    req.rows.length
      + (e.outerIter.rows.length - e.outerIter.pos) * e.innerIter.rows.length
      ≤ req.requiredRows →
    e.outerIter.rows.length - e.outerIter.pos ≤ n →
    ∃ e' req', MJExec.outerRowsLoop (n + 1) e req = .ok (e', req', false)
      ∧ req'.rows = req.rows ++ (e.outerIter.rows.drop e.outerIter.pos).flatMap
          (fun o => e.innerIter.rows.map (joinRow o)) := by
  intro n
  induction n with
  | zero =>
    intro e req hmatch hpos hlen hsel hfil hbud hfuel
    have hdrop : e.outerIter.rows.drop e.outerIter.pos = [] :=
      List.drop_eq_nil_iff.mpr (by omega)
    have hcur : e.outerIter.current = none := by
      unfold RowIter.current
      exact List.get?_eq_none.mpr (by omega)
    refine ⟨e, req, ?_, ?_⟩
    · unfold MJExec.outerRowsLoop
      rw [hcur]
    · rw [hdrop]
      simp
  | succ n ih =>
    intro e req hmatch hpos hlen hsel hfil hbud hfuel
    rcases hdrop : e.outerIter.rows.drop e.outerIter.pos with _ | ⟨row, rem⟩
    · have hle : e.outerIter.rows.length ≤ e.outerIter.pos := by
        have hl := congrArg List.length hdrop
        simp only [List.length_drop, List.length_nil] at hl
        omega
      have hcur : e.outerIter.current = none := by
        unfold RowIter.current
        exact List.get?_eq_none.mpr hle
      refine ⟨e, req, ?_, ?_⟩
      · unfold MJExec.outerRowsLoop
        rw [hcur]
      · simp
    · have hposlt : e.outerIter.pos < e.outerIter.rows.length := by
        have hl := congrArg List.length hdrop
        simp only [List.length_drop, List.length_cons] at hl
        omega
      have hcur : e.outerIter.current = some row := by
        unfold RowIter.current
        rw [List.get?_eq_getElem?]
        have h1 : (e.outerIter.rows.drop e.outerIter.pos)[0]? = some row := by
          rw [hdrop]
          simp
        rw [List.getElem?_drop] at h1
        simpa using h1
      have hdrop' : e.outerIter.rows.drop (e.outerIter.pos + 1) = rem := by
        have ht := congrArg List.tail hdrop
        rw [List.tail_drop] at ht
        exact ht
      have hil : e.innerIter.rows.length
          ≤ (e.outerIter.rows.length - e.outerIter.pos) * e.innerIter.rows.length :=
        Nat.le_mul_of_pos_left _ (by omega)
      have hnotfull : req.isFull = false := by
        unfold Chunk.isFull
        rw [numRows_of_sel_none req hsel, decide_eq_false_iff_not]
        omega
      have hfilrow : e.outerTable.filtersSelected.getD row.idx true = true :=
        hfil row (by rw [hdrop]; exact List.mem_cons_self _ _)
      have hIM : MJExec.innerMatchLoop (n + 1 + 1) e req row = _ :=
        innerMatchLoop_all n e req row hpos hlen hsel (by omega)
      obtain ⟨e', req', heq, hrows⟩ :=
        ih (stepOuter e)
          (req.appendRows (e.innerIter.rows.map (joinRow row)))
          rfl rfl hlen hsel
          (by
            intro r hr
            apply hfil r
            have hr2 : r ∈ e.outerIter.rows.drop (e.outerIter.pos + 1) := hr
            rw [hdrop'] at hr2
            rw [hdrop]
            exact List.mem_cons_of_mem _ hr2)
          (by
            show (req.rows ++ e.innerIter.rows.map (joinRow row)).length
                + (e.outerIter.rows.length - (e.outerIter.pos + 1))
                  * e.innerIter.rows.length
                ≤ req.requiredRows
            rw [List.length_append, List.length_map]
            have hsub : e.outerIter.rows.length - e.outerIter.pos
                = (e.outerIter.rows.length - (e.outerIter.pos + 1)) + 1 := by omega
            rw [hsub, Nat.succ_mul] at hbud
            omega)
          (by
            show e.outerIter.rows.length - (e.outerIter.pos + 1) ≤ n
            omega)
      unfold MJExec.outerRowsLoop
      rw [hcur]
      dsimp only
      simp only [hnotfull, Bool.false_eq_true, if_false]
      rw [hfilrow]
      simp only [Bool.not_true, Bool.false_eq_true, if_false]
      rw [hIM]
      dsimp only
      simp only [Bool.false_eq_true, if_false, Bool.or_true, Bool.not_true]
      refine ⟨e', req', heq, ?_⟩
      have hrows2 : req'.rows = (req.rows ++ e.innerIter.rows.map (joinRow row))
          ++ (e.outerIter.rows.drop (e.outerIter.pos + 1)).flatMap
            (fun o => e.innerIter.rows.map (joinRow o)) := hrows
      rw [hdrop'] at hrows2
      rw [hrows2]
      simp [List.flatMap_cons, List.append_assoc]

/-- C2: with output capacity 2, outer keys [2] and inner keys [2,2,2] under
inner join, the first `next` fills the batch with 2 rows and suspends with the
inner group iterator's position preserved at 2 and the outer iterator still on
the same (first) outer row; the second `next` resumes there and returns the
remaining 1 row; the third returns an empty batch. -/
theorem c2_suspend_resume_mid_match :
    s6next1.map (fun p => p.2.rows.map Row.cols)
      = .ok [[some 2, some 2], [some 2, some 2]]
    ∧ s6next1.map (fun p => (p.1.innerIter.pos, p.1.outerIter.pos)) = .ok (2, 0)
    ∧ s6exec1.innerIter.rows.length = 3
    ∧ s6next2.map (fun p => p.2.rows.map Row.cols) = .ok [[some 2, some 2]]
    ∧ s6next3.map (fun p => p.2.rows.map Row.cols) = .ok [] := by
  decide

/-- C3: with `max_chunk_size = 2`, outer keys [2] and inner keys [2,2,2,2,2]
arriving as three batches [2,2],[2,2],[2,3], the whole inner group is
accumulated (store plus carry-flag path) before matching, and the inner join
produces exactly 5 joined rows. -/
theorem c3_inner_group_spans_batches :
    (runAll 10 50 s4exec 10).map (fun p => p.2)
      = .ok [List.replicate 5 [some 2, some 2]] := by
  decide

/-- C7: after a successful `Close` of any operator state reachable by `Open`
and `Next` calls, the operator's memory tracker is back at its value at open
(zero: every byte charged for side batches and the inner store has been
released) and the disk tracker is at zero. -/
theorem c7_counters_return_to_zero (e e' : MJExec) (hr : Reach e)
    (hc : e.close = .ok e') : e'.core.mem = 0 ∧ e'.core.disk = 0 := by
  obtain ⟨hm, hd, hii, hoi, hin, hon⟩ := reach_memInv e hr
  unfold MJExec.close MJTable.finish at hc
  rw [hin, hon, hii, hoi] at hc
  simp only [Bool.not_true, Bool.false_eq_true, if_false, if_true] at hc
  have he' := Except.ok.inj hc
  rw [← he']
  constructor
  · dsimp only
    omega
  · dsimp only
    exact hd

/-- The result of closing the S1 operator straight after `Open`. -/
def c7closed : MJExec := (s1exec.close).toOption.getD s1exec

/-- Witness for C7: closing the freshly opened S1 operator leaves both
counters at zero. -/
theorem c7_counters_return_to_zero_witness :
    c7closed.core.mem = 0 ∧ c7closed.core.disk = 0 :=
  c7_counters_return_to_zero s1exec c7closed
    (Reach.openEx 4 false false [0] [0] []
      [[some 2], [some 2], [some 4]]
      [[some 1], [some 2], [some 2], [some 3]])
    (by rfl)

/-- C9: the operator is deterministic — two runs of the full `next` sequence
from equal operator states (same configuration, same input streams, and the
modelled deterministic matcher, comparator and filters) produce identical
sequences of output batches and identical final states. -/
theorem c9_deterministic (e1 e2 : MJExec) (fuel batchFuel cap : Nat)
    (h : e1 = e2) :
    runAll fuel batchFuel e1 cap = runAll fuel batchFuel e2 cap := by
  rw [h]

/-- Witness for C9 at a concrete operator. -/
theorem c9_deterministic_witness :
    runAll 10 50 s1exec 32 = runAll 10 50 s1exec 32 :=
  c9_deterministic s1exec s1exec 10 50 32 rfl

/-- C10: `finish` on a side whose `init` has not run returns `nil` without
touching any field or counter, so `Close` before `Open` releases nothing and
reports no error from either side. -/
theorem c10_close_before_open :
    (∀ (t : MJTable) (core : ExecCore), t.inited = false →
        t.finish core = .ok (t, core))
    ∧ (∀ (e : MJExec), e.innerTable.inited = false → e.outerTable.inited = false →
        ∃ e', e.close = .ok e' ∧ e'.innerTable = e.innerTable
          ∧ e'.outerTable = e.outerTable ∧ e'.core = e.core) := by
  constructor
  · intro t core h
    simp [MJTable.finish, h]
  · intro e h1 h2
    exact ⟨{ e with hasMatch := false, hasNull := false, trackersLive := false },
      by simp [MJExec.close, MJTable.finish, h1, h2], rfl, rfl, rfl⟩

/-- C1: `Close` is idempotent — after a first successful `Close`, another
`Close` succeeds and returns the very same operator state (no field of either
side nor any counter changes). -/
theorem c1_close_idempotent (e e' : MJExec) (h : e.close = .ok e') :
    e'.close = .ok e' := by
  unfold MJExec.close MJTable.finish at h ⊢
  by_cases hi : e.innerTable.inited <;> by_cases ho : e.outerTable.inited <;>
    by_cases hii : e.innerTable.isInner <;> by_cases hoi : e.outerTable.isInner <;>
      simp [hi, ho, hii, hoi, Chunk.memUsage, RowContainer.mem] at h ⊢ <;>
        subst h <;> simp [hi, ho, hii, hoi, Chunk.memUsage, RowContainer.mem]

/-- Witness for C1: close a small opened operator twice. -/
theorem c1_close_idempotent_witness :
    ((s1exec.close.toOption.getD s1exec).close
      = .ok (s1exec.close.toOption.getD s1exec)) :=
  c1_close_idempotent s1exec (s1exec.close.toOption.getD s1exec) (by rfl)

/-- C5: in the main loop of `Next`, when the inner group iterator is at its
end the comparison result is taken to be −1 if the order is ascending and +1
if descending, without invoking the comparator; with the inner side finished
this routes every remaining outer-group row to the matcher's miss-match path
(in order) and the comparator is never invoked for the rest of the call. -/
theorem c5_inner_past_end_direction :
    (∀ e : MJExec, e.innerIter.atEnd = true →
        e.computeCmp = (if e.core.desc then 1 else -1, e))
    ∧ (∀ (fuel : Nat) (e : MJExec) (req : Chunk) (e' : MJExec) (req' : Chunk),
        innerFinished e → req.isFull = false →
        MJExec.nextLoop fuel e req = .ok (e', req') →
        e'.cmpLog = e.cmpLog
        ∧ ∃ rest, e'.missLog
            = e.missLog ++ (e.outerIter.rows.drop e.outerIter.pos) ++ rest) :=
  ⟨computeCmp_atEnd, fun fuel e req e' req' hfin hfull h =>
    let r := nextLoop_innerFinished_spec fuel e req e' req' hfin hfull h
    ⟨r.1, r.2.2⟩⟩

/-- A small state whose inner side is finished while one outer-group row is
still pending. -/
def c5wExec : MJExec :=
  let b := (mkExec 4 false false [0] [0] [] [] []).openExec
  { b with
    innerTable := { b.innerTable with executed := true },
    outerTable := { b.outerTable with
      executed := true,
      groupRowsIter := some (RowIter.ofRows [⟨[some 7], 0⟩]),
      filtersSelected := [true] } }

/-- The state after one `nextLoop` run from `c5wExec`. -/
def c5wExecAfter : MJExec :=
  match MJExec.nextLoop 10 c5wExec (mkReq 5) with
  | .ok (e', _) => e'
  | .error _ => c5wExec

/-- Witness for C5 at `c5wExec`: the default comparison is −1 (ascending), no
comparison is logged, and the pending outer row reaches the miss-match path. -/
theorem c5_inner_past_end_direction_witness :
    c5wExec.computeCmp = (if c5wExec.core.desc then 1 else -1, c5wExec)
    ∧ c5wExecAfter.cmpLog = c5wExec.cmpLog
    ∧ ∃ rest, c5wExecAfter.missLog
        = c5wExec.missLog ++ (c5wExec.outerIter.rows.drop c5wExec.outerIter.pos) ++ rest := by
  refine ⟨c5_inner_past_end_direction.1 c5wExec (by rfl), ?_⟩
  exact c5_inner_past_end_direction.2 10 c5wExec (mkReq 5) c5wExecAfter (mkReq 5)
    ⟨by rfl, by rfl, by rfl⟩ (by rfl) (by rfl)

/-- C6: when the outer side pulls a batch from its child (checker drained,
upstream alive, current request chunk at its full-batch default), the
`required_rows` hint reaches the upstream exactly when the operator is an
outer join with no outer filter; in every other configuration the pull
requests a full batch (`maxChunkSize` rows). -/
theorem c6_required_rows_pushdown (t : MJTable) (core : ExecCore) (n : Int) (c : Chunk)
    (hex : t.executed = false) (hgc : t.checkerExhausted = true)
    (hc : t.childChunk = some c) (hfull : c.requiredRows = core.maxChunkSize) :
    ((t.fetchNextOuterGroup core n).2).fetchLog
      = core.fetchLog ++
        [(t.childIndex,
          if core.isOuterJoin && t.filters.isEmpty then
            (c.setRequiredRows n core.maxChunkSize).requiredRows
          else core.maxChunkSize)] := by
  have hk : ∀ t' : MJTable,
      ((t'.fetchNextChunk core).2).fetchLog
        = core.fetchLog ++ [(t'.childIndex, (t'.chunkD core.maxChunkSize).requiredRows)] := by
    intro t'
    simp [MJTable.fetchNextChunk]
  unfold MJTable.fetchNextOuterGroup
  rw [hex, hgc]
  simp only [Bool.false_and, Bool.not_false, Bool.true_and, Bool.false_eq_true, if_false,
    if_true]
  by_cases hcfg : core.isOuterJoin && t.filters.isEmpty
  · simp only [hcfg, if_true, hc, Option.map_some']
    split
    next => simp [hk, MJTable.chunkD]
    next => split <;> simp [hk, MJTable.chunkD]
  · simp only [hcfg, if_false, Bool.false_eq_true]
    split
    next => simp [hk, MJTable.chunkD, hc, hfull]
    next => split <;> simp [hk, MJTable.chunkD, hc, hfull]

/-- Witness for C6: an inner-join configuration (no hint: full batch of
`maxChunkSize = 4` requested) on a small state. -/
theorem c6_required_rows_pushdown_witness :
    ((s1exec.outerTable.fetchNextOuterGroup s1exec.core 2).2).fetchLog
      = s1exec.core.fetchLog ++ [(1, 4)] := by
  have h := c6_required_rows_pushdown s1exec.outerTable s1exec.core 2
    (Chunk.empty 4) (by rfl) (by rfl) (by rfl) (by rfl)
  simpa using h

/-- Witness for C10: a never-opened operator closes without error and with
both sides untouched. -/
theorem c10_close_before_open_witness :
    (mkExec 4 false false [0] [0] [] [] []).innerTable.inited = false
    ∧ ∃ e', (mkExec 4 false false [0] [0] [] [] []).close = .ok e'
        ∧ e'.innerTable = (mkExec 4 false false [0] [0] [] [] []).innerTable
        ∧ e'.outerTable = (mkExec 4 false false [0] [0] [] [] []).outerTable
        ∧ e'.core = (mkExec 4 false false [0] [0] [] [] []).core :=
  ⟨rfl, c10_close_before_open.2 (mkExec 4 false false [0] [0] [] [] []) rfl rfl⟩

/-- C4: on the inner side a group whose first row has a NULL join key is
dropped before any comparison — nothing is selected and the chunk is left
untouched — and every row index an inner-side `selectNextGroup` does select
denotes a row with a NULL-free key (a run shares its first row's key, and a
run opening on NULL selects nothing); concretely, in scenario S5 (outer keys
[null,1,2], inner keys [null,2], inner join) the run produces exactly the
joined row (2,2), the miss-match log is the NULL-keyed outer row followed by
the unmatched key-1 row — so the NULL outer row takes the miss-match path
exactly once — the inner group iterator ends holding only the NULL-free inner
row, and no comparator invocation ever received a NULL inner key. -/
theorem c4_null_keys :
    (∀ t : MJTable, t.isInner = true →
      t.hasNullInJoinKey ((t.childChunk.getD (Chunk.empty 0)).getRow
        ((t.groupChecker.getD (GroupChecker.initial t.joinKeys)).getNextGroup.1.1)) = true →
      t.selectNextGroup.groupRowsSelected = []
        ∧ t.selectNextGroup.childChunk = t.childChunk)
    ∧ (∀ (t : MJTable) (gc : GroupChecker) (c : Chunk),
      t.isInner = true → t.groupChecker = some gc → t.childChunk = some c →
      c.sel = none →
      (∀ g ∈ gc.groups, g ∈ splitRuns t.joinKeys c.rows) →
      ∀ i ∈ t.selectNextGroup.groupRowsSelected,
        t.hasNullInJoinKey (c.rows.getD i default) = false)
    ∧ (runAll 10 50 s5exec 32).map
        (fun p => (p.2, p.1.missLog, p.1.innerIter.rows))
      = .ok ([[[some 2, some 2]]], [⟨[none], 0⟩, ⟨[some 1], 1⟩], [⟨[some 2], 1⟩])
    ∧ (runAll 10 50 s5exec 32).map
        (fun p => p.1.missLog.countP (fun r => (keyOf [0] r).any Option.isNone))
      = .ok 1
    ∧ (runAll 10 50 s5exec 32).map
        (fun p => p.1.cmpLog.all (fun q => q.2.all Option.isSome))
      = .ok true := by
  refine ⟨selectNextGroup_null_dropped, selectNextGroup_inner_no_null, ?_, ?_, ?_⟩
  · decide
  · decide
  · decide

/-- An inner chunk whose first row has a NULL join key, with its checker's
runs. -/
def c4wChunk1 : Chunk :=
  { rows := [⟨[none], 0⟩, ⟨[some 1], 1⟩], sel := none,
    requiredRows := 32, maxChunkSize := 32 }

def c4wTable1 : MJTable :=
  { mkTable true 0 [0] [] with
    childChunk := some c4wChunk1,
    groupChecker := some ⟨[0], splitRuns [0] c4wChunk1.rows, none⟩ }

/-- An inner chunk whose pending run `[1,3)` has NULL-free keys. -/
def c4wChunk2 : Chunk :=
  { rows := [⟨[none], 0⟩, ⟨[some 1], 1⟩, ⟨[some 1], 2⟩], sel := none,
    requiredRows := 32, maxChunkSize := 32 }

def c4wGC2 : GroupChecker := ⟨[0], [(1, 3)], none⟩

def c4wTable2 : MJTable :=
  { mkTable true 0 [0] [] with
    childChunk := some c4wChunk2, groupChecker := some c4wGC2 }

/-- Witness for C4: the NULL-headed run selects nothing and leaves the chunk
alone; the selected index 1 of the NULL-free run denotes a NULL-free row. -/
theorem c4_null_keys_witness :
    (c4wTable1.selectNextGroup.groupRowsSelected = []
      ∧ c4wTable1.selectNextGroup.childChunk = c4wTable1.childChunk)
    ∧ c4wTable2.hasNullInJoinKey (c4wChunk2.rows.getD 1 default) = false :=
  ⟨c4_null_keys.1 c4wTable1 (by decide) (by decide),
   c4_null_keys.2.1 c4wTable2 c4wGC2 c4wChunk2 (by decide) rfl rfl rfl
     (by decide) 1 (by decide)⟩

/-- C8: the equal-keys matcher appends, for each remaining outer-group row in
outer input order, the whole inner group joined with it in inner input order
(under rewound iterator, cleared flag, passing filters and sufficient budget);
concretely, scenario S1 (outer keys [1,2,2,3], inner keys [2,2,4], inner join)
yields exactly the four rows (2,2),(2,2),(2,2),(2,2) in that order. -/
theorem c8_output_order :
    (∀ (n : Nat) (e : MJExec) (req : Chunk),
      e.hasMatch = false →
      e.innerIter.pos = 0 →
      0 < e.innerIter.rows.length →
      req.sel = none →
      (∀ r ∈ e.outerIter.rows.drop e.outerIter.pos,
        e.outerTable.filtersSelected.getD r.idx true = true) →
      req.rows.length
        + (e.outerIter.rows.length - e.outerIter.pos) * e.innerIter.rows.length
        ≤ req.requiredRows →
      e.outerIter.rows.length - e.outerIter.pos ≤ n →
      ∃ e' req', MJExec.outerRowsLoop (n + 1) e req = .ok (e', req', false)
        ∧ req'.rows = req.rows ++ (e.outerIter.rows.drop e.outerIter.pos).flatMap
            (fun o => e.innerIter.rows.map (joinRow o)))
    ∧ (runAll 10 50 s1exec 32).map (fun p => p.2)
      = .ok [[[some 2, some 2], [some 2, some 2], [some 2, some 2], [some 2, some 2]]] :=
  ⟨outerRowsLoop_ordered, by decide⟩

/-- A one-outer-row, one-inner-row matcher state with cleared flags. -/
def c8wExec : MJExec :=
  ((mkExec 4 false false [0] [0] [] [] []).setInnerIter ⟨[⟨[some 5], 0⟩], 0⟩).setOuterIter
    ⟨[⟨[some 7], 0⟩], 0⟩

/-- Witness for C8: on a one-row outer group and one-row inner group the loop
emits exactly the outer-then-inner ordered join rows. -/
theorem c8_output_order_witness :
    (MJExec.outerRowsLoop (1 + 1) c8wExec (mkReq 4)).map (fun p => p.2.1.rows)
      = .ok ((mkReq 4).rows
          ++ (c8wExec.outerIter.rows.drop c8wExec.outerIter.pos).flatMap
            (fun o => c8wExec.innerIter.rows.map (joinRow o))) := by
  obtain ⟨e', req', h1, h2⟩ := c8_output_order.1 1 c8wExec (mkReq 4) rfl rfl
    (by decide) rfl (by decide) (by decide) (by decide)
  rw [h1]
  simp only [Except.map]
  exact congrArg Except.ok h2

end MergeJoin
